import Mathlib

/-!
slack-channel-prefix-hider: the label synchronisation engine of `content_script.js`

A shallow embedding of the content script: the prefix transform
(`computeHiddenName`), the label state store (`getOriginalName`), the
reconciler (`applyPrefixesToSpan`, `hidePrefixes`), the batching scheduler
(`scheduleHide`, `flushPending`), the configuration loader
(`loadPrefixesAndRun`) and the `MutationObserver` callback.

Modelling conventions

* A JavaScript string is a list of code units, `Str := List Char`; none of the
  functions below inspects a code unit other than by equality.
* A DOM node is its identity, `Node := Nat`. The host tree is the record `Dom`:
  every node has an ordered list of children, each a text node or an element,
  and `textContent`, `isConnected` and `querySelectorAll` are computed from
  it. The only thing the script writes there is `textContent`, and that write
  replaces the children of the element, as in the DOM.
* The two `WeakMap`s are partial functions `Node → Option Str`; `has` is
  `isSome`, `get` of a missing key is `none` (`undefined`).
* `pendingSpans` is a `Set`: an insertion-ordered list without duplicates.
* Module-level `let`/`const` bindings are fields of `State`, which every
  function takes and returns.
* `State.calls` is a trace of the calls the script makes, in order, so that
  statements such as "is called exactly once" can be written down.
-/

namespace SlackPrefixHider

/-! ## Strings -/

/-- JavaScript string: a sequence of code units. -/
abbrev Str := List Char

/-- JavaScript `s.startsWith(p)` (ECMAScript `String.prototype.startsWith` at position 0):
false when `p` is longer than `s`, otherwise the first `p.length` code units
of `s` are compared with `p`. -/
def startsWith (s p : Str) : Bool :=
  if s.length < p.length then false else s.take p.length == p

/-- JavaScript `s.substring(start)`: the code units of `s` from index `start`
(clamped to the length of `s`) to the end. -/
def substring (s : Str) (start : Nat) : Str :=
  s.drop (min start s.length)

/-- JavaScript `s.replace(/^[_\- ]/, '')`: the pattern is anchored at the start and has no
`g` flag, so at most the first code unit is removed, when it is `_`, `-` or a
space. -/
def replaceLeadingSeparator (s : Str) : Str :=
  match s with
  | [] => []
  | c :: rest => if c = '_' ∨ c = '-' ∨ c = ' ' then rest else c :: rest

/-- JavaScript `computeHiddenName(name)`, with the module-level `prefixes` passed
explicitly. The `for ... of` loop returns from inside its body at the first
entry that `name` starts with. -/
def computeHiddenName (prefixes : List Str) (name : Str) : Str :=
  match prefixes with
  | [] => name
  | pre :: rest =>
    if startsWith name pre then
      replaceLeadingSeparator (substring name pre.length)
    else
      computeHiddenName rest name

/-! ### Reference definition of the prefix transform, after the specification -/

/-- The separator set of the specification. -/
def separators : List Char := ['_', '-', ' ']

/-- Remove `p` from the start of `s`, code unit by code unit. -/
def removeFromStart : Str → Str → Str
  | [], s => s
  | _ :: _, [] => []
  | _ :: p, _ :: s => removeFromStart p s

/-- Strip at most one leading separator character. -/
def stripOneSeparator (s : Str) : Str :=
  match s.head? with
  | some c => if c ∈ separators then s.tail else s
  | none => s

/-- Reference definition, in the words of the specification: scan the prefixes
in list order; for the first one that is a literal prefix of `original`, remove
it from the start and strip at most one leading separator; when none matches,
return `original` unchanged. -/
def computeDisplayedSpec (prefixes : List Str) (original : Str) : Str :=
  match prefixes.find? (fun p => decide (p <+: original)) with
  | none => original
  | some p => stripOneSeparator (removeFromStart p original)

/-! ## The host tree -/

/-- DOM node, by identity. -/
abbrev Node := Nat

/-- A child of a node: a text node, known by its data, or an element. -/
inductive Child where
  | text (data : Str)
  | element (node : Node)
  deriving DecidableEq, Repr

/-- The element children among a list of children, in order. -/
def elementChildren : List Child → List Node
  | [] => []
  | .text _ :: cs => elementChildren cs
  | .element n :: cs => n :: elementChildren cs

/-- The children an element has after its `textContent` is set to `text`: none
for the empty string, otherwise a single text node. -/
def textChildren (text : Str) : List Child :=
  match text with
  | [] => []
  | c :: cs => [.text (c :: cs)]

/-- The host document, and the detached subtrees the script still refers to. A
real document is a `Dom` whose `childNodes` form a tree of height at most
`depth` below every node; `depth` bounds every traversal. -/
structure Dom where
  /-- JavaScript `node.childNodes`. -/
  childNodes : Node → List Child
  /-- The `document` node. -/
  document : Node
  /-- A bound on the height of the tree. -/
  depth : Nat
  /-- JavaScript `node instanceof HTMLElement`. -/
  isHTMLElement : Node → Bool
  /-- JavaScript `node.nodeType` (1 for an element, 11 for a document fragment). -/
  nodeType : Node → Nat
  /-- JavaScript `node.matches(CHANNEL_NAME_SELECTOR)`. -/
  matchesChannelName : Node → Bool
  /-- JavaScript `node.matches(SIDEBAR_ROOT_SELECTOR)`. -/
  matchesSidebarRoot : Node → Bool

/-- The elements strictly below `n`, in document order, down to `fuel`
levels. -/
def Dom.descendantsTo (d : Dom) : Nat → Node → List Node
  | 0, _ => []
  | fuel + 1, n =>
    (elementChildren (d.childNodes n)).flatMap (fun c => c :: d.descendantsTo fuel c)

/-- The concatenated data of the text nodes below `n`, in document order,
through `fuel` levels of elements. -/
def Dom.textTo (d : Dom) : Nat → Node → Str
  | 0, n =>
    (d.childNodes n).flatMap (fun c =>
      match c with
      | .text t => t
      | .element _ => [])
  | fuel + 1, n =>
    (d.childNodes n).flatMap (fun c =>
      match c with
      | .text t => t
      | .element m => d.textTo fuel m)

/-- The elements strictly below `n`, in document order. -/
def Dom.descendants (d : Dom) (n : Node) : List Node :=
  d.descendantsTo d.depth n

/-- JavaScript `node.textContent` (read). -/
def Dom.textContent (d : Dom) (n : Node) : Str :=
  d.textTo d.depth n

/-- JavaScript `node.isConnected`: the node is the document or lies below it. -/
def Dom.isConnected (d : Dom) (n : Node) : Bool :=
  decide (n = d.document) || decide (n ∈ d.descendants d.document)

/-- JavaScript `node.querySelectorAll(CHANNEL_NAME_SELECTOR)`: the descendants of `node`
that match the channel-name selector. -/
def Dom.querySelectorAll (d : Dom) (n : Node) : List Node :=
  (d.descendants n).filter d.matchesChannelName

/-- JavaScript `document.querySelectorAll(CHANNEL_NAME_SELECTOR)`. -/
def Dom.documentChannelNames (d : Dom) : List Node :=
  d.querySelectorAll d.document

/-- JavaScript `document.querySelectorAll(SIDEBAR_ROOT_SELECTOR)`. -/
def Dom.sidebarRoots (d : Dom) : List Node :=
  (d.descendants d.document).filter d.matchesSidebarRoot

/-- The assignment `span.textContent = text`: every child of `span` is removed,
with the subtree below it, and a text node holding `text` is inserted unless
`text` is empty. -/
def Dom.setTextContent (d : Dom) (span : Node) (text : Str) : Dom :=
  { d with childNodes := fun n => if n = span then textChildren text else d.childNodes n }

/-- The call `parent.removeChild(child)` for an element `child`. -/
def Dom.removeChild (d : Dom) (parent child : Node) : Dom :=
  { d with
    childNodes := fun n =>
      if n = parent then (d.childNodes n).filter (fun c => decide (c ≠ .element child))
      else d.childNodes n }

/-- The document `d'` is `d` after writes to `textContent`: the same document
node, bound and node properties, and below every node a sublist of what was
there. -/
structure Dom.Shrinks (d' d : Dom) : Prop where
  /-- Same document node. -/
  document : d'.document = d.document
  /-- Same bound. -/
  depth : d'.depth = d.depth
  /-- Same `HTMLElement` nodes. -/
  isHTMLElement : d'.isHTMLElement = d.isHTMLElement
  /-- Same channel-name labels. -/
  matchesChannelName : d'.matchesChannelName = d.matchesChannelName
  /-- Fewer descendants. -/
  sublist : ∀ fuel a, (d'.descendantsTo fuel a).Sublist (d.descendantsTo fuel a)

/-! ## WeakMap and Set -/

/-- A `WeakMap` from nodes to strings. -/
abbrev WeakMap := Node → Option Str

/-- JavaScript `new WeakMap()`. -/
def WeakMap.empty : WeakMap := fun _ => none

/-- JavaScript `m.has(k)`. -/
def WeakMap.has (m : WeakMap) (k : Node) : Bool := (m k).isSome

/-- JavaScript `m.get(k)`; `none` is `undefined`. -/
def WeakMap.get (m : WeakMap) (k : Node) : Option Str := m k

/-- JavaScript `m.set(k, v)`. -/
def WeakMap.set (m : WeakMap) (k : Node) (v : Str) : WeakMap :=
  fun n => if n = k then some v else m n

/-- JavaScript `m.delete(k)`. -/
def WeakMap.delete (m : WeakMap) (k : Node) : WeakMap :=
  fun n => if n = k then none else m n

/-- JavaScript `set.add(n)` on an insertion-ordered `Set`. -/
def setAdd (set : List Node) (n : Node) : List Node :=
  if n ∈ set then set else set ++ [n]

/-- JavaScript `nodes.forEach((n) => set.add(n))`. -/
def setAddAll (set : List Node) (nodes : List Node) : List Node :=
  nodes.foldl setAdd set

/-- JavaScript truthiness of a value that is `undefined` or a string: only a
non-empty string is truthy. -/
def truthy : Option Str → Bool
  | some (_ :: _) => true
  | _ => false

/-- JavaScript `a || b` for `a` either `undefined` or a string and `b` a string. -/
def orElse (a : Option Str) (b : Str) : Str :=
  match a with
  | some (c :: cs) => c :: cs
  | _ => b

/-! ## Engine state -/

/-- Calls made by the script, recorded in order in `State.calls`. -/
inductive Call where
  | requestAnimationFrame
  | flushPending
  | hidePrefixes (spans : Option (List Node))
  | applyPrefixesToSpan (span : Node)
  deriving DecidableEq, Repr

/-- The module-level bindings of `content_script.js` together with the host
state they interact with. -/
structure State where
  /-- The host document. -/
  dom : Dom
  /-- JavaScript `let prefixes = []`. -/
  prefixes : List Str
  /-- JavaScript `const originalNameMap = new WeakMap()`. -/
  originalNameMap : WeakMap
  /-- JavaScript `const appliedNameMap = new WeakMap()`. -/
  appliedNameMap : WeakMap
  /-- JavaScript `const pendingSpans = new Set()`. -/
  pendingSpans : List Node
  /-- JavaScript `let scheduleAll = false`. -/
  scheduleAll : Bool
  /-- JavaScript `let rafId = null`. -/
  rafId : Option Nat
  /-- Handles of the frame callbacks the window holds; each is `flushPending`,
  the only callback the script ever passes to `requestAnimationFrame`. -/
  frameCallbacks : List Nat
  /-- The handle the next `requestAnimationFrame` call returns. -/
  nextHandle : Nat
  /-- The roots the `MutationObserver` is subscribed to. -/
  observed : List Node
  /-- Trace of calls, oldest first. -/
  calls : List Call

/-- Append a call to the trace. -/
def State.record (s : State) (c : Call) : State :=
  { s with calls := s.calls ++ [c] }

/-- The state the module starts in, over a given document. -/
def State.init (d : Dom) : State :=
  { dom := d, prefixes := [], originalNameMap := WeakMap.empty,
    appliedNameMap := WeakMap.empty, pendingSpans := [], scheduleAll := false,
    rafId := none, frameCallbacks := [], nextHandle := 1, observed := [], calls := [] }

/-- A write to `span.textContent` by the host application. -/
def State.hostWrite (s : State) (span : Node) (text : Str) : State :=
  { s with dom := s.dom.setTextContent span text }

/-- Replacement of the module-level `prefixes`. -/
def State.setPrefixes (s : State) (ps : List Str) : State :=
  { s with prefixes := ps }

/-! ## Label state store and reconciler -/

/-- JavaScript `getOriginalName(span)`: the returned string and the state afterwards. -/
def getOriginalName (span : Node) (s : State) : Str × State :=
  let currentText := s.dom.textContent span
  let lastApplied := WeakMap.get s.appliedNameMap span
  let s1 :=
    if !WeakMap.has s.originalNameMap span
        || (truthy lastApplied && decide (some currentText ≠ lastApplied)) then
      { s with
        originalNameMap := WeakMap.set s.originalNameMap span currentText
        appliedNameMap := WeakMap.delete s.appliedNameMap span }
    else s
  (orElse (WeakMap.get s1.originalNameMap span) currentText, s1)

/-- JavaScript `applyPrefixesToSpan(span)`. -/
def applyPrefixesToSpan (span : Node) (s : State) : State :=
  let s0 := s.record (.applyPrefixesToSpan span)
  let r := getOriginalName span s0
  let originalName := r.1
  let s1 := r.2
  let hiddenName := computeHiddenName s1.prefixes originalName
  let s2 :=
    if s1.dom.textContent span ≠ hiddenName then
      { s1 with dom := s1.dom.setTextContent span hiddenName }
    else s1
  { s2 with appliedNameMap := WeakMap.set s2.appliedNameMap span hiddenName }

/-- The body of the `forEach` callback of `hidePrefixes`. -/
def hideOne (s : State) (span : Node) : State :=
  if s.dom.isHTMLElement span && s.dom.isConnected span then
    applyPrefixesToSpan span s
  else s

/-- JavaScript `hidePrefixes(spans)`; `none` is a call without argument. -/
def hidePrefixes (spans : Option (List Node)) (s : State) : State :=
  let s0 := s.record (.hidePrefixes spans)
  let targets :=
    match spans with
    | some l => l
    | none => s0.dom.documentChannelNames
  targets.foldl hideOne s0

/-! ## Batching scheduler -/

/-- JavaScript `flushPending()`. -/
def flushPending (s : State) : State :=
  let s0 := s.record .flushPending
  let spansToProcess : Option (List Node) :=
    if s0.scheduleAll then none
    else some (s0.pendingSpans.filter (fun span => s0.dom.isConnected span))
  let s1 := { s0 with pendingSpans := [], scheduleAll := false, rafId := none }
  hidePrefixes spansToProcess s1

/-- JavaScript `window.requestAnimationFrame(flushPending)`: the returned handle and the
state afterwards. -/
def requestAnimationFrame (s : State) : Nat × State :=
  (s.nextHandle,
    { s.record .requestAnimationFrame with
      frameCallbacks := s.frameCallbacks ++ [s.nextHandle]
      nextHandle := s.nextHandle + 1 })

/-- The argument of `scheduleHide`. -/
inductive Spans where
  /-- An `Array` or a `Set` of nodes. -/
  | arrayOrSet (spans : List Node)
  /-- A `NodeList`. -/
  | nodeList (spans : List Node)
  /-- A single node. -/
  | node (span : Node)
  /-- No argument. -/
  | undefined
  deriving DecidableEq, Repr

/-- JavaScript `scheduleHide(spans)`. -/
def scheduleHide (spans : Spans) (s : State) : State :=
  let s1 :=
    match spans with
    | .arrayOrSet l => { s with pendingSpans := setAddAll s.pendingSpans l }
    | .nodeList l => { s with pendingSpans := setAddAll s.pendingSpans l }
    | .node n => { s with pendingSpans := setAdd s.pendingSpans n }
    | .undefined => { s with scheduleAll := true }
  if s1.rafId = none then
    let r := requestAnimationFrame s1
    { r.2 with rafId := some r.1 }
  else s1

/-- The window runs the frame callbacks it holds: one `flushPending` call per
handle. -/
def runAnimationFrame (s : State) : State :=
  s.frameCallbacks.foldl (fun st _ => flushPending st) { s with frameCallbacks := [] }

/-! ## Configuration loader -/

/-- The value found under the key `prefixes` of the storage response. -/
inductive JsValue where
  /-- The key is missing. -/
  | undefined
  /-- An array of strings. -/
  | array (items : List Str)
  /-- Any other value, with its truthiness. -/
  | other (isTruthy : Bool)
  deriving DecidableEq, Repr

/-- Truthiness of a stored value: every array is truthy. -/
def JsValue.truthy : JsValue → Bool
  | .undefined => false
  | .array _ => true
  | .other b => b

/-- JavaScript `Array.isArray(v)`. -/
def JsValue.isArray : JsValue → Bool
  | .array _ => true
  | _ => false

/-- The object the storage callback receives. -/
structure StorageItems where
  /-- JavaScript `data.prefixes`. -/
  prefixes : JsValue
  deriving DecidableEq, Repr

/-- A thrown JavaScript exception. -/
inductive JsError where
  /-- JavaScript `TypeError`, as thrown by a property read on `undefined`. -/
  | typeError
  deriving DecidableEq, Repr

/-- JavaScript `loadPrefixesAndRun()`, at the point where `chrome.storage.sync.get`
invokes the callback with `data`; `none` is a callback invoked without a data
object, as happens when the read fails and `chrome.runtime.lastError` is set.
The property read `data.prefixes` throws on `undefined`. -/
def loadPrefixesAndRun (data : Option StorageItems) (s : State) : Except JsError State :=
  match data with
  | none => .error .typeError
  | some items =>
    let s1 :=
      if items.prefixes.truthy && items.prefixes.isArray then
        match items.prefixes with
        | .array l => { s with prefixes := l }
        | _ => s
      else { s with prefixes := [] }
    .ok (scheduleHide .undefined s1)

/-! ## Tree watcher -/

/-- JavaScript `collectChannelNameElements(node, bucket)` for a node of a `NodeList`
(never `null`); returns the bucket afterwards. -/
def collectChannelNameElements (d : Dom) (node : Node) (bucket : List Node) : List Node :=
  if d.nodeType node = 1 then
    let b1 := if d.matchesChannelName node then setAdd bucket node else bucket
    setAddAll b1 (d.querySelectorAll node)
  else if d.nodeType node = 11 then
    setAddAll bucket (d.querySelectorAll node)
  else bucket

/-- JavaScript `refreshObserverTargets(observer)`: the returned flag and the state
afterwards. -/
def refreshObserverTargets (s : State) : Bool × State :=
  if s.dom.sidebarRoots.length = 0 then
    (false, { s with observed := [] })
  else
    (true, { s with observed := s.dom.sidebarRoots.foldl (fun o root => o ++ [root]) [] })

/-- A `MutationRecord`. -/
inductive MutationRecord where
  | childList (addedNodes removedNodes : List Node)
  /-- A text mutation; `parentElement` is `mutation.target.parentElement`. -/
  | characterData (parentElement : Option Node)
  /-- A record of any other type. -/
  | other
  deriving DecidableEq, Repr

/-- The body of `removedNodes.forEach` in the observer callback. -/
def forgetRemoved (s : State) (node : Node) : State :=
  if s.dom.nodeType node = 1 && s.dom.matchesChannelName node then
    { s with
      originalNameMap := WeakMap.delete s.originalNameMap node
      appliedNameMap := WeakMap.delete s.appliedNameMap node }
  else s

/-- The body of `mutations.forEach` in the observer callback, on the pair of
`affectedSpans` and the state. -/
def handleMutation (acc : List Node × State) (mutation : MutationRecord) : List Node × State :=
  match mutation with
  | .childList addedNodes removedNodes =>
    (addedNodes.foldl (fun b node => collectChannelNameElements acc.2.dom node b) acc.1,
      removedNodes.foldl forgetRemoved acc.2)
  | .characterData targetParent =>
    match targetParent with
    | some parentElement =>
      if acc.2.dom.matchesChannelName parentElement then
        (setAdd acc.1 parentElement, acc.2)
      else acc
    | none => acc
  | .other => acc

/-- The `MutationObserver` callback. -/
def observerCallback (mutations : List MutationRecord) (s : State) : State :=
  let r := mutations.foldl handleMutation ([], s)
  let affectedSpans := r.1
  let s1 := r.2
  let s2 :=
    if affectedSpans.length > 0 then scheduleHide (.arrayOrSet affectedSpans) s1
    else scheduleHide .undefined s1
  (refreshObserverTargets s2).2

/-! ## Sequences of scheduling requests -/

/-- The pending set after a `scheduleHide` call with argument `spans`. -/
def Spans.addTo (spans : Spans) (pending : List Node) : List Node :=
  match spans with
  | .arrayOrSet l => setAddAll pending l
  | .nodeList l => setAddAll pending l
  | .node n => setAdd pending n
  | .undefined => pending

/-- Whether a `scheduleHide` call is a recompute-all request. -/
def Spans.isAll : Spans → Bool
  | .undefined => true
  | _ => false

/-- A sequence of `scheduleHide` calls, made in order with no frame callback
running in between. -/
def runRequests (reqs : List Spans) (s : State) : State :=
  reqs.foldl (fun st r => scheduleHide r st) s

/-- The argument `flushPending` passes to `hidePrefixes`. -/
def spansToProcess (s : State) : Option (List Node) :=
  if s.scheduleAll then none
  else some (s.pendingSpans.filter (fun span => s.dom.isConnected span))

/-! ## The per-label part of the state -/

/-- What the engine knows about one label: its current text, its stored
original and its stored last applied text. -/
structure LabelState where
  /-- The text content of the label. -/
  text : Str
  /-- The entry of `originalNameMap`, if any. -/
  original : Option Str
  /-- The entry of `appliedNameMap`, if any. -/
  lastApplied : Option Str
  deriving DecidableEq, Repr

/-- The label state of `span` in `s`. -/
def State.label (s : State) (span : Node) : LabelState :=
  { text := s.dom.textContent span
    original := s.originalNameMap span
    lastApplied := s.appliedNameMap span }

/-- The test of `getOriginalName` that decides whether the current text is
taken as the new original. -/
def LabelState.refreshes (l : LabelState) : Bool :=
  !l.original.isSome || (truthy l.lastApplied && decide (some l.text ≠ l.lastApplied))

/-- The string `getOriginalName` returns on a label state. -/
def LabelState.resolved (l : LabelState) : Str :=
  if l.refreshes then l.text else orElse l.original l.text

/-- The label state after `applyPrefixesToSpan`. -/
def LabelState.reconciled (prefixes : List Str) (l : LabelState) : LabelState :=
  { text := computeHiddenName prefixes l.resolved
    original := if l.refreshes then some l.text else l.original
    lastApplied := some (computeHiddenName prefixes l.resolved) }

/-- The list `hidePrefixes(spans)` iterates over. -/
def targetsOf (spans : Option (List Node)) (s : State) : List Node :=
  match spans with
  | some l => l
  | none => s.dom.documentChannelNames

/-! ## Concrete documents and runs -/

/-- A document (node `9`) whose only label is node `0`, an attached
`HTMLElement` holding `text`. -/
def singleLabelDom (text : Str) : Dom :=
  { childNodes := fun n =>
      if n = 9 then [.element 0] else if n = 0 then textChildren text else []
    document := 9
    depth := 2
    isHTMLElement := fun n => decide (n = 0)
    nodeType := fun n => if n = 9 then 9 else 1
    matchesChannelName := fun n => decide (n = 0)
    matchesSidebarRoot := fun _ => false }

/-- Run for the overwrite scenario: prefixes `["foo"]`, a label holding
`"foo"` is reconciled (its displayed text becomes the empty string), then the
host writes `"foo-qux"` into it. -/
def emptiedThenOverwritten : State :=
  (applyPrefixesToSpan 0
    ((State.init (singleLabelDom "foo".toList)).setPrefixes ["foo".toList])).hostWrite 0
    "foo-qux".toList

/-- Run for the empty-original scenario: prefixes `["foo", "bar"]`, a label
that is still empty is reconciled, then the host writes `"foo-bar-baz"` into
it. -/
def emptyThenFilled : State :=
  (applyPrefixesToSpan 0
    ((State.init (singleLabelDom [])).setPrefixes ["foo".toList, "bar".toList])).hostWrite 0
    "foo-bar-baz".toList

/-- A document (node `9`) with two labels, both `HTMLElement`s: node `0` is
attached and holds `"foo-a"`, node `1` has detached and holds `"foo-b"`. -/
def twoLabelDom : Dom :=
  { childNodes := fun n =>
      if n = 9 then [.element 0]
      else if n = 0 then [.text "foo-a".toList]
      else if n = 1 then [.text "foo-b".toList]
      else []
    document := 9
    depth := 2
    isHTMLElement := fun n => decide (n = 0 ∨ n = 1)
    nodeType := fun n => if n = 9 then 9 else 1
    matchesChannelName := fun n => decide (n = 0 ∨ n = 1)
    matchesSidebarRoot := fun _ => false }

/-- Both labels of `twoLabelDom` are pending, with prefixes `["foo"]`. -/
def twoPending : State :=
  scheduleHide (.arrayOrSet [0, 1]) ((State.init twoLabelDom).setPrefixes ["foo".toList])

/-- A document (node `9`) in which the label `0` contains the label `1`, which
holds the text `"foo-x"`; both are attached `HTMLElement`s. -/
def nestedDom : Dom :=
  { childNodes := fun n =>
      if n = 9 then [.element 0]
      else if n = 0 then [.element 1]
      else if n = 1 then [.text "foo-x".toList]
      else []
    document := 9
    depth := 3
    isHTMLElement := fun n => decide (n = 0 ∨ n = 1)
    nodeType := fun n => if n = 9 then 9 else 1
    matchesChannelName := fun n => decide (n = 0 ∨ n = 1)
    matchesSidebarRoot := fun _ => false }

/-- The labels `0` and `1` of `nestedDom` are both pending, with prefixes
`["foo"]`. -/
def nestedBothPending : State :=
  scheduleHide (.arrayOrSet [0, 1]) ((State.init nestedDom).setPrefixes ["foo".toList])

/-- Only the inner label `1` of `nestedDom` is pending, with prefixes
`["foo"]`. -/
def nestedInnerPending : State :=
  scheduleHide (.node 1) ((State.init nestedDom).setPrefixes ["foo".toList])

/-- The host removes the element `child` from its parent `parent`. -/
def State.hostRemoveChild (s : State) (parent child : Node) : State :=
  { s with dom := s.dom.removeChild parent child }

/-- A document (node `9`) with a sidebar root `0`, a row element `1` inside it
and the label `2`, holding `"team-design"`, inside the row. -/
def rowDom : Dom :=
  { childNodes := fun n =>
      if n = 9 then [.element 0]
      else if n = 0 then [.element 1]
      else if n = 1 then [.element 2]
      else if n = 2 then [.text "team-design".toList]
      else []
    document := 9
    depth := 4
    isHTMLElement := fun n => decide (n ≠ 9)
    nodeType := fun n => if n = 9 then 9 else 1
    matchesChannelName := fun n => decide (n = 2)
    matchesSidebarRoot := fun n => decide (n = 0) }

/-- Run for the removal scenario: with prefixes `["team"]` the label `2` of
`rowDom` is reconciled, then the host removes the row `1`, and the label with
it, from the sidebar root `0`. -/
def rowRemoved : State :=
  (applyPrefixesToSpan 2
    ((State.init rowDom).setPrefixes ["team".toList])).hostRemoveChild 0 1

/-! ## Lemmas on strings -/

theorem startsWith_iff (s p : Str) : startsWith s p = true ↔ p <+: s := by
  unfold startsWith
  constructor
  · intro h
    split at h
    · exact absurd h (by simp)
    · have h2 : s.take p.length = p := by simpa using h
      rw [← h2]
      exact List.take_prefix _ _
  · rintro ⟨t, rfl⟩
    simp

theorem substring_append (p r : Str) : substring (p ++ r) p.length = r := by
  simp [substring]

theorem removeFromStart_append (p r : Str) : removeFromStart p (p ++ r) = r := by
  induction p with
  | nil => rfl
  | cons c p ih => simpa [removeFromStart] using ih

theorem replaceLeadingSeparator_eq_strip (s : Str) :
    replaceLeadingSeparator s = stripOneSeparator s := by
  cases s with
  | nil => rfl
  | cons c rest => simp [replaceLeadingSeparator, stripOneSeparator, separators]

theorem replaceLeadingSeparator_nil : replaceLeadingSeparator [] = [] := rfl

theorem computeHiddenName_nil (prefixes : List Str) : computeHiddenName prefixes [] = [] := by
  induction prefixes with
  | nil => rfl
  | cons p rest ih =>
    unfold computeHiddenName
    split
    · simp [substring, replaceLeadingSeparator]
    · exact ih

theorem computeHiddenName_eq_spec (prefixes : List Str) (name : Str) :
    computeHiddenName prefixes name = computeDisplayedSpec prefixes name := by
  induction prefixes with
  | nil => rfl
  | cons p rest ih =>
    unfold computeHiddenName computeDisplayedSpec
    by_cases h : startsWith name p = true
    · have hp : p <+: name := (startsWith_iff name p).1 h
      obtain ⟨r, rfl⟩ := hp
      simp [h, List.find?, substring_append, removeFromStart_append,
        replaceLeadingSeparator_eq_strip]
    · have hp : ¬ p <+: name := fun hp => h ((startsWith_iff name p).2 hp)
      simp only [h, List.find?, hp, decide_False]
      simpa [computeDisplayedSpec] using ih


/-! ## The prefix transform -/

theorem stripOneSeparator_length (r : Str) : r.length - 1 ≤ (stripOneSeparator r).length := by
  cases r with
  | nil => simp [stripOneSeparator]
  | cons c t =>
    simp only [stripOneSeparator, List.head?_cons, List.tail_cons]
    split <;> simp

theorem computeHiddenName_skip (before : List Str) (rest : List Str) (name : Str)
    (h : ∀ q ∈ before, ¬ q <+: name) :
    computeHiddenName (before ++ rest) name = computeHiddenName rest name := by
  induction before with
  | nil => rfl
  | cons q qs ih =>
    have hq : startsWith name q = false := by
      cases hs : startsWith name q with
      | false => rfl
      | true => exact absurd ((startsWith_iff name q).1 hs) (h q (List.mem_cons_self _ _))
    have := ih (fun x hx => h x (List.mem_cons_of_mem _ hx))
    simp only [List.cons_append]
    rw [computeHiddenName]
    simp [hq, this]

theorem computeHiddenName_first (before after : List Str) (p r : Str)
    (h : ∀ q ∈ before, ¬ q <+: p ++ r) :
    computeHiddenName (before ++ p :: after) (p ++ r) = stripOneSeparator r := by
  rw [computeHiddenName_skip before _ _ h, computeHiddenName]
  have hp : startsWith (p ++ r) p = true := (startsWith_iff _ _).2 ⟨r, rfl⟩
  simp [hp, substring_append, replaceLeadingSeparator_eq_strip]

/-- C1: `computeHiddenName` equals the reference definition of the
specification for every prefix list and every name: the name unchanged when no
entry is a literal prefix of it, otherwise the name with the earliest such
entry removed from its start and at most one leading `_`, `-` or space
removed. With prefixes `["foo", "foo-bar"]` the name `"foo-bar-baz"` gives
`"bar-baz"`, and with prefixes `["foo"]` the name `"baz"` gives `"baz"`. -/
theorem computeHiddenName_refines_spec :
    (∀ (prefixes : List Str) (name : Str),
      computeHiddenName prefixes name = computeDisplayedSpec prefixes name)
    ∧ computeHiddenName ["foo".toList, "foo-bar".toList] "foo-bar-baz".toList
        = "bar-baz".toList
    ∧ computeHiddenName ["foo".toList] "baz".toList = "baz".toList := by
  refine ⟨computeHiddenName_eq_spec, ?_, ?_⟩ <;> decide

/-- C6: when `p` is the first entry of the prefix list that is a literal prefix
of the name and `r` is the rest of the name after `p`, `computeHiddenName`
returns `r` without its first character when that character is `_`, `-` or a
space and `r` itself otherwise; the result has at least
`length name - length p - 1` characters, and the character after a stripped
separator is kept even when it is a separator too. -/
theorem computeHiddenName_strips_one_separator (before after : List Str) (p r : Str)
    (hfirst : ∀ q ∈ before, ¬ q <+: p ++ r) :
    computeHiddenName (before ++ p :: after) (p ++ r)
        = (match r with
           | [] => []
           | c :: t => if c = '_' ∨ c = '-' ∨ c = ' ' then t else c :: t)
    ∧ (p ++ r).length - p.length - 1
        ≤ (computeHiddenName (before ++ p :: after) (p ++ r)).length
    ∧ (∀ c d t, r = c :: d :: t → (c = '_' ∨ c = '-' ∨ c = ' ') →
        computeHiddenName (before ++ p :: after) (p ++ r) = d :: t) := by
  rw [computeHiddenName_first before after p r hfirst]
  refine ⟨?_, ?_, ?_⟩
  · cases r with
    | nil => rfl
    | cons c t => simp [stripOneSeparator, separators]
  · have := stripOneSeparator_length r
    simpa using this
  · rintro c d t rfl hc
    simp [stripOneSeparator, separators, hc]

/-- Witness for C6: prefixes `["foo"]` and name `"foo__baz"` give `"_baz"`. -/
theorem computeHiddenName_strips_one_separator_witness :
    computeHiddenName ([] ++ "foo".toList :: []) ("foo".toList ++ "__baz".toList)
      = "_baz".toList :=
  (computeHiddenName_strips_one_separator [] [] "foo".toList "__baz".toList
    (fun _ hq => absurd hq (List.not_mem_nil _))).2.2 '_' '_' "baz".toList rfl (Or.inl rfl)


/-! ## The host tree -/

theorem elementChildren_textChildren (t : Str) : elementChildren (textChildren t) = [] := by
  cases t <;> rfl

theorem mem_elementChildren {cs : List Child} {n : Node} :
    n ∈ elementChildren cs ↔ Child.element n ∈ cs := by
  induction cs with
  | nil => simp [elementChildren]
  | cons c cs ih =>
    cases c with
    | text t => simp [elementChildren, ih]
    | element m => simp [elementChildren, ih]

theorem setTextContent_childNodes_self (d : Dom) (e : Node) (t : Str) :
    (d.setTextContent e t).childNodes e = textChildren t := by
  simp [Dom.setTextContent]

theorem setTextContent_childNodes_other (d : Dom) (e a : Node) (t : Str) (h : a ≠ e) :
    (d.setTextContent e t).childNodes a = d.childNodes a := by
  simp [Dom.setTextContent, h]

theorem textTo_setTextContent_self (d : Dom) (e : Node) (t : Str) (fuel : Nat) :
    (d.setTextContent e t).textTo fuel e = t := by
  cases fuel <;> cases t <;>
    simp [Dom.textTo, setTextContent_childNodes_self, textChildren]

/-- After `span.textContent = text`, reading `span.textContent` gives `text`. -/
theorem textContent_setTextContent_self (d : Dom) (e : Node) (t : Str) :
    (d.setTextContent e t).textContent e = t :=
  textTo_setTextContent_self d e t d.depth

theorem descendantsTo_setTextContent_self (d : Dom) (e : Node) (t : Str) (fuel : Nat) :
    (d.setTextContent e t).descendantsTo fuel e = [] := by
  cases fuel with
  | zero => rfl
  | succ f =>
    simp [Dom.descendantsTo, setTextContent_childNodes_self, elementChildren_textChildren]

theorem mem_descendantsTo_succ {d : Dom} {fuel : Nat} {n x : Node} :
    x ∈ d.descendantsTo (fuel + 1) n ↔
      ∃ c ∈ elementChildren (d.childNodes n), x = c ∨ x ∈ d.descendantsTo fuel c := by
  simp [Dom.descendantsTo, List.mem_flatMap]

theorem descendantsTo_mono_succ (d : Dom) (fuel : Nat) (n x : Node)
    (h : x ∈ d.descendantsTo fuel n) : x ∈ d.descendantsTo (fuel + 1) n := by
  induction fuel generalizing n with
  | zero => simp [Dom.descendantsTo] at h
  | succ f ih =>
    obtain ⟨c, hc, hx⟩ := mem_descendantsTo_succ.1 h
    refine mem_descendantsTo_succ.2 ⟨c, hc, ?_⟩
    rcases hx with hx | hx
    · exact Or.inl hx
    · exact Or.inr (ih c hx)

theorem descendantsTo_mono (d : Dom) {f g : Nat} (hfg : f ≤ g) (n x : Node)
    (h : x ∈ d.descendantsTo f n) : x ∈ d.descendantsTo g n := by
  induction hfg with
  | refl => exact h
  | step _ ih => exact descendantsTo_mono_succ d _ n x ih

/-- A write to `e` leaves the text and the descendants of every node that is
not `e` and does not contain `e`. -/
theorem setTextContent_frame (d : Dom) (e : Node) (t : Str) (fuel : Nat) (a : Node)
    (hne : a ≠ e) (hnot : e ∉ d.descendantsTo fuel a) :
    (d.setTextContent e t).textTo fuel a = d.textTo fuel a
      ∧ (d.setTextContent e t).descendantsTo fuel a = d.descendantsTo fuel a := by
  induction fuel generalizing a with
  | zero =>
    simp only [Dom.textTo, Dom.descendantsTo, setTextContent_childNodes_other d e a t hne,
      and_self]
  | succ f ih =>
    have hchild : ∀ c, c ∈ elementChildren (d.childNodes a) →
        c ≠ e ∧ e ∉ d.descendantsTo f c := by
      intro c hc
      constructor
      · intro hce
        exact hnot (mem_descendantsTo_succ.2 ⟨c, hc, Or.inl hce.symm⟩)
      · intro he
        exact hnot (mem_descendantsTo_succ.2 ⟨c, hc, Or.inr he⟩)
    constructor
    · simp only [Dom.textTo, setTextContent_childNodes_other d e a t hne]
      apply List.flatMap_congr
      intro c hc
      cases c with
      | text x => rfl
      | element m =>
        have hm := hchild m (mem_elementChildren.2 hc)
        exact (ih m hm.1 hm.2).1
    · simp only [Dom.descendantsTo, setTextContent_childNodes_other d e a t hne]
      apply List.flatMap_congr
      intro c hc
      have hm := hchild c hc
      rw [(ih c hm.1 hm.2).2]

theorem sublist_flatMap {α β : Type} (l : List α) (f g : α → List β)
    (h : ∀ x ∈ l, (f x).Sublist (g x)) : (l.flatMap f).Sublist (l.flatMap g) := by
  induction l with
  | nil => simp
  | cons a l ih =>
    simp only [List.flatMap_cons]
    exact List.Sublist.append (h a (List.mem_cons_self _ _))
      (ih (fun x hx => h x (List.mem_cons_of_mem _ hx)))

/-- A write only removes descendants: the descendants of every node after the
write are a sublist of those before. -/
theorem setTextContent_descendantsTo_sublist (d : Dom) (e : Node) (t : Str) (fuel : Nat)
    (a : Node) :
    ((d.setTextContent e t).descendantsTo fuel a).Sublist (d.descendantsTo fuel a) := by
  induction fuel generalizing a with
  | zero => exact List.Sublist.refl _
  | succ f ih =>
    by_cases hae : a = e
    · subst hae
      rw [descendantsTo_setTextContent_self]
      exact List.nil_sublist _
    · simp only [Dom.descendantsTo, setTextContent_childNodes_other d e a t hae]
      apply sublist_flatMap
      intro c _
      exact List.Sublist.cons₂ c (ih c)

/-- A node that is not below `e` stays below every node other than `e` that it
was below. -/
theorem setTextContent_mem_descendantsTo (d : Dom) (e : Node) (t : Str) (x : Node)
    (bound : Nat) (hx : x ∉ d.descendantsTo bound e) (fuel : Nat) (hf : fuel ≤ bound)
    (r : Node) (hr : r ≠ e) (h : x ∈ d.descendantsTo fuel r) :
    x ∈ (d.setTextContent e t).descendantsTo fuel r := by
  induction fuel generalizing r with
  | zero => simp [Dom.descendantsTo] at h
  | succ f ih =>
    obtain ⟨c, hc, hxc⟩ := mem_descendantsTo_succ.1 h
    refine mem_descendantsTo_succ.2 ⟨c, ?_, ?_⟩
    · rw [setTextContent_childNodes_other d e r t hr]; exact hc
    · rcases hxc with hxc | hxc
      · exact Or.inl hxc
      · right
        by_cases hce : c = e
        · subst hce
          exact absurd (descendantsTo_mono d (Nat.le_of_succ_le hf) c x hxc) hx
        · exact ih (Nat.le_of_succ_le hf) c hce hxc

/-- The written node itself stays below every other node it was below. -/
theorem setTextContent_self_mem_descendantsTo (d : Dom) (e : Node) (t : Str) (fuel : Nat)
    (r : Node) (hr : r ≠ e) (h : e ∈ d.descendantsTo fuel r) :
    e ∈ (d.setTextContent e t).descendantsTo fuel r := by
  induction fuel generalizing r with
  | zero => simp [Dom.descendantsTo] at h
  | succ f ih =>
    obtain ⟨c, hc, hxc⟩ := mem_descendantsTo_succ.1 h
    by_cases hce : c = e
    · refine mem_descendantsTo_succ.2 ⟨c, ?_, Or.inl hce.symm⟩
      rw [setTextContent_childNodes_other d e r t hr]; exact hc
    · refine mem_descendantsTo_succ.2 ⟨c, ?_, ?_⟩
      · rw [setTextContent_childNodes_other d e r t hr]; exact hc
      · rcases hxc with hxc | hxc
        · exact absurd hxc.symm hce
        · exact Or.inr (ih c hce hxc)

theorem Dom.Shrinks.refl (d : Dom) : d.Shrinks d :=
  ⟨rfl, rfl, rfl, rfl, fun _ _ => List.Sublist.refl _⟩

theorem Dom.Shrinks.trans {d₁ d₂ d₃ : Dom} (h₁ : d₁.Shrinks d₂) (h₂ : d₂.Shrinks d₃) :
    d₁.Shrinks d₃ :=
  ⟨h₁.document.trans h₂.document, h₁.depth.trans h₂.depth,
    h₁.isHTMLElement.trans h₂.isHTMLElement,
    h₁.matchesChannelName.trans h₂.matchesChannelName,
    fun f a => (h₁.sublist f a).trans (h₂.sublist f a)⟩

theorem setTextContent_shrinks (d : Dom) (e : Node) (t : Str) :
    (d.setTextContent e t).Shrinks d :=
  ⟨rfl, rfl, rfl, rfl, fun f a => setTextContent_descendantsTo_sublist d e t f a⟩

theorem Dom.Shrinks.descendants_sublist {d' d : Dom} (h : d'.Shrinks d) (a : Node) :
    (d'.descendants a).Sublist (d.descendants a) := by
  unfold Dom.descendants
  rw [h.depth]
  exact h.sublist _ _

theorem Dom.Shrinks.not_mem {d' d : Dom} (h : d'.Shrinks d) {x a : Node}
    (hx : x ∉ d.descendants a) : x ∉ d'.descendants a :=
  fun hm => hx ((h.descendants_sublist a).subset hm)

theorem Dom.Shrinks.isConnected {d' d : Dom} (h : d'.Shrinks d) {n : Node}
    (hc : d'.isConnected n = true) : d.isConnected n = true := by
  simp only [Dom.isConnected, Bool.or_eq_true, decide_eq_true_eq] at hc ⊢
  rcases hc with hc | hc
  · exact Or.inl (hc.trans h.document)
  · right
    rw [h.document] at hc
    exact (h.descendants_sublist _).subset hc

theorem Dom.Shrinks.documentChannelNames {d' d : Dom} (h : d'.Shrinks d) :
    d'.documentChannelNames.Sublist d.documentChannelNames := by
  unfold Dom.documentChannelNames Dom.querySelectorAll
  rw [h.matchesChannelName, h.document]
  exact (h.descendants_sublist _).filter _

/-- A write to `e` does not change whether `n` is connected when `n` is `e`
itself or does not lie below `e`. -/
theorem isConnected_setTextContent (d : Dom) (e : Node) (t : Str) (n : Node)
    (h : n = e ∨ n ∉ d.descendants e) :
    (d.setTextContent e t).isConnected n = d.isConnected n := by
  cases hb : d.isConnected n with
  | false =>
    cases ha : (d.setTextContent e t).isConnected n with
    | false => rfl
    | true => rw [(setTextContent_shrinks d e t).isConnected ha] at hb; exact absurd hb (by simp)
  | true =>
    simp only [Dom.isConnected, Bool.or_eq_true, decide_eq_true_eq] at hb ⊢
    rcases hb with hb | hb
    · exact Or.inl hb
    · by_cases hde : d.document = e
      · rcases h with h | h
        · exact Or.inl (h.trans hde.symm)
        · rw [hde] at hb; exact absurd hb h
      · right
        show n ∈ (d.setTextContent e t).descendantsTo d.depth d.document
        rcases h with h | h
        · rw [h]
          rw [h] at hb
          exact setTextContent_self_mem_descendantsTo d e t d.depth d.document hde hb
        · exact setTextContent_mem_descendantsTo d e t n d.depth h d.depth (Nat.le_refl _)
            d.document hde hb

/-- A write to `e` does not change the text of a node other than `e` that does
not contain `e`. -/
theorem textContent_setTextContent_other (d : Dom) (e : Node) (t : Str) (n : Node)
    (hne : n ≠ e) (h : e ∉ d.descendants n) :
    (d.setTextContent e t).textContent n = d.textContent n :=
  (setTextContent_frame d e t d.depth n hne h).1

/-! ## Label state store and reconciler -/

theorem orElse_some_self (c : Str) : orElse (some c) c = c := by
  cases c <;> rfl

theorem getOriginalName_fst (n : Node) (s : State) :
    (getOriginalName n s).1 = (s.label n).resolved := by
  simp only [getOriginalName, LabelState.resolved, LabelState.refreshes, State.label,
    WeakMap.has, WeakMap.get]
  split
  · simp [WeakMap.set, orElse_some_self]
  · rfl

theorem getOriginalName_label (n : Node) (s : State) :
    (getOriginalName n s).2.label n =
      { text := (s.label n).text
        original := if (s.label n).refreshes then some (s.label n).text else (s.label n).original
        lastApplied := if (s.label n).refreshes then none else (s.label n).lastApplied } := by
  simp only [getOriginalName, LabelState.refreshes, State.label, WeakMap.has, WeakMap.get]
  split <;> simp [WeakMap.set, WeakMap.delete]

theorem getOriginalName_label_other (n m : Node) (s : State) (h : m ≠ n) :
    (getOriginalName n s).2.label m = s.label m := by
  simp only [getOriginalName, State.label]
  split <;> simp [WeakMap.set, WeakMap.delete, h]

theorem getOriginalName_prefixes (n : Node) (s : State) :
    (getOriginalName n s).2.prefixes = s.prefixes := by
  simp only [getOriginalName]
  split <;> rfl

theorem getOriginalName_dom (n : Node) (s : State) :
    (getOriginalName n s).2.dom = s.dom := by
  simp only [getOriginalName]
  split <;> rfl

theorem getOriginalName_calls (n : Node) (s : State) :
    (getOriginalName n s).2.calls = s.calls := by
  simp only [getOriginalName]
  split <;> rfl

theorem applyPrefixesToSpan_label (n : Node) (s : State) :
    (applyPrefixesToSpan n s).label n = (s.label n).reconciled s.prefixes := by
  have h1 := getOriginalName_fst n (s.record (.applyPrefixesToSpan n))
  have h2 := getOriginalName_label n (s.record (.applyPrefixesToSpan n))
  have h3 := getOriginalName_prefixes n (s.record (.applyPrefixesToSpan n))
  have hl : (s.record (.applyPrefixesToSpan n)).label n = s.label n := rfl
  have hp : (s.record (.applyPrefixesToSpan n)).prefixes = s.prefixes := rfl
  rw [hl] at h1 h2
  rw [hp] at h3
  simp only [State.label, LabelState.mk.injEq] at h2
  obtain ⟨h2a, h2b, h2c⟩ := h2
  simp only [applyPrefixesToSpan, State.label, LabelState.reconciled, h1, h3,
    LabelState.mk.injEq]
  refine ⟨?_, ?_, ?_⟩
  · split
    · exact textContent_setTextContent_self _ _ _
    · rename_i h
      simpa using h
  · split <;> simpa [State.label] using h2b
  · split <;> simp [WeakMap.set]

theorem applyPrefixesToSpan_dom (n : Node) (s : State) :
    (applyPrefixesToSpan n s).dom = s.dom
      ∨ ∃ t, (applyPrefixesToSpan n s).dom = s.dom.setTextContent n t := by
  have h := getOriginalName_dom n (s.record (.applyPrefixesToSpan n))
  have hd : (s.record (.applyPrefixesToSpan n)).dom = s.dom := rfl
  rw [hd] at h
  simp only [applyPrefixesToSpan]
  split
  · right
    exact ⟨computeHiddenName (getOriginalName n (s.record (.applyPrefixesToSpan n))).2.prefixes
      (getOriginalName n (s.record (.applyPrefixesToSpan n))).1, by simp only [h]⟩
  · left
    exact h

theorem applyPrefixesToSpan_maps_other (n m : Node) (s : State) (h : m ≠ n) :
    (applyPrefixesToSpan n s).originalNameMap m = s.originalNameMap m
      ∧ (applyPrefixesToSpan n s).appliedNameMap m = s.appliedNameMap m := by
  have h2 := getOriginalName_label_other n m (s.record (.applyPrefixesToSpan n)) h
  have hl : (s.record (.applyPrefixesToSpan n)).label m = s.label m := rfl
  rw [hl] at h2
  simp only [State.label, LabelState.mk.injEq] at h2
  obtain ⟨-, h2b, h2c⟩ := h2
  simp only [applyPrefixesToSpan]
  constructor
  · split <;> exact h2b
  · split <;> simpa [WeakMap.set, h] using h2c

/-- Reconciling `n` leaves the state of every other label that does not
contain `n`. -/
theorem applyPrefixesToSpan_label_other (n m : Node) (s : State) (h : m ≠ n)
    (hnot : n ∉ s.dom.descendants m) :
    (applyPrefixesToSpan n s).label m = s.label m := by
  have hm := applyPrefixesToSpan_maps_other n m s h
  simp only [State.label, LabelState.mk.injEq]
  refine ⟨?_, hm.1, hm.2⟩
  rcases applyPrefixesToSpan_dom n s with hd | ⟨t, hd⟩
  · rw [hd]
  · rw [hd]
    exact textContent_setTextContent_other s.dom n t m h hnot

theorem applyPrefixesToSpan_shrinks (n : Node) (s : State) :
    (applyPrefixesToSpan n s).dom.Shrinks s.dom := by
  rcases applyPrefixesToSpan_dom n s with hd | ⟨t, hd⟩
  · rw [hd]; exact Dom.Shrinks.refl _
  · rw [hd]; exact setTextContent_shrinks _ _ _

/-- Reconciling `n` does not change whether `m` is connected when `m` is `n`
itself or does not lie below `n`. -/
theorem applyPrefixesToSpan_isConnected (n m : Node) (s : State)
    (h : m = n ∨ m ∉ s.dom.descendants n) :
    (applyPrefixesToSpan n s).dom.isConnected m = s.dom.isConnected m := by
  rcases applyPrefixesToSpan_dom n s with hd | ⟨t, hd⟩
  · rw [hd]
  · rw [hd]
    exact isConnected_setTextContent s.dom n t m h

theorem applyPrefixesToSpan_prefixes (n : Node) (s : State) :
    (applyPrefixesToSpan n s).prefixes = s.prefixes := by
  have h := getOriginalName_prefixes n (s.record (.applyPrefixesToSpan n))
  simp only [applyPrefixesToSpan]
  split <;> exact h

theorem applyPrefixesToSpan_calls (n : Node) (s : State) :
    (applyPrefixesToSpan n s).calls = s.calls ++ [.applyPrefixesToSpan n] := by
  have h := getOriginalName_calls n (s.record (.applyPrefixesToSpan n))
  simp only [applyPrefixesToSpan]
  split <;> exact h

/-! ### One step of `hidePrefixes` -/

theorem hideOne_eq (s : State) (n : Node) :
    hideOne s n =
      if s.dom.isHTMLElement n = true ∧ s.dom.isConnected n = true then
        applyPrefixesToSpan n s
      else s := by
  simp only [hideOne, Bool.and_eq_true]

theorem hideOne_prefixes (s : State) (n : Node) : (hideOne s n).prefixes = s.prefixes := by
  rw [hideOne_eq]; split
  · exact applyPrefixesToSpan_prefixes n s
  · rfl

theorem hideOne_shrinks (s : State) (n : Node) : (hideOne s n).dom.Shrinks s.dom := by
  rw [hideOne_eq]; split
  · exact applyPrefixesToSpan_shrinks n s
  · exact Dom.Shrinks.refl _

theorem hideOne_label_other (s : State) (n m : Node) (h : m ≠ n)
    (hnot : n ∉ s.dom.descendants m) :
    (hideOne s n).label m = s.label m := by
  rw [hideOne_eq]; split
  · exact applyPrefixesToSpan_label_other n m s h hnot
  · rfl

theorem hideOne_isConnected (s : State) (n m : Node)
    (h : m = n ∨ m ∉ s.dom.descendants n) :
    (hideOne s n).dom.isConnected m = s.dom.isConnected m := by
  rw [hideOne_eq]; split
  · exact applyPrefixesToSpan_isConnected n m s h
  · rfl

theorem hideOne_calls (s : State) (n : Node) :
    (hideOne s n).calls = s.calls ++
      (if s.dom.isHTMLElement n && s.dom.isConnected n then [Call.applyPrefixesToSpan n]
       else []) := by
  unfold hideOne
  split
  · exact applyPrefixesToSpan_calls n s
  · simp

/-! ### A pass of `hidePrefixes` -/

theorem foldl_hideOne_prefixes (l : List Node) (s : State) :
    (l.foldl hideOne s).prefixes = s.prefixes := by
  induction l generalizing s with
  | nil => rfl
  | cons n l ih => rw [List.foldl_cons, ih, hideOne_prefixes]

theorem foldl_hideOne_shrinks (l : List Node) (s : State) :
    (l.foldl hideOne s).dom.Shrinks s.dom := by
  induction l generalizing s with
  | nil => exact Dom.Shrinks.refl _
  | cons n l ih =>
    rw [List.foldl_cons]
    exact (ih _).trans (hideOne_shrinks s n)

/-- A pass leaves the state of a label `n` that it does not reconcile, provided
no node of the pass lies below `n`. -/
theorem foldl_hideOne_label_frame (l : List Node) (s : State) (n : Node)
    (hnot : ∀ m ∈ l, m ∉ s.dom.descendants n)
    (hskip : n ∈ l → ¬ (s.dom.isHTMLElement n = true ∧ s.dom.isConnected n = true)) :
    (l.foldl hideOne s).label n = s.label n := by
  induction l generalizing s with
  | nil => rfl
  | cons m l ih =>
    rw [List.foldl_cons]
    have hsh := hideOne_shrinks s m
    have hstep : (hideOne s m).label n = s.label n := by
      by_cases e : n = m
      · subst e
        rw [hideOne_eq, if_neg (hskip (List.mem_cons_self _ _))]
      · exact hideOne_label_other s m n e (hnot m (List.mem_cons_self _ _))
    rw [ih (hideOne s m)
      (fun x hx => hsh.not_mem (hnot x (List.mem_cons_of_mem _ hx)))
      (fun hn hel => hskip (List.mem_cons_of_mem _ hn)
        ⟨by rw [← hsh.isHTMLElement]; exact hel.1, hsh.isConnected hel.2⟩)]
    exact hstep

/-- A pass does not change whether `n` is connected, provided `n` lies below
no node of the pass. -/
theorem foldl_hideOne_isConnected (l : List Node) (s : State) (n : Node)
    (h : ∀ m ∈ l, n = m ∨ n ∉ s.dom.descendants m) :
    (l.foldl hideOne s).dom.isConnected n = s.dom.isConnected n := by
  induction l generalizing s with
  | nil => rfl
  | cons m l ih =>
    rw [List.foldl_cons]
    have hsh := hideOne_shrinks s m
    rw [ih (hideOne s m) (fun x hx => (h x (List.mem_cons_of_mem _ hx)).imp id hsh.not_mem)]
    exact hideOne_isConnected s m n (h m (List.mem_cons_self _ _))

/-- A pass over a duplicate-free list reconciles, once, every attached
`HTMLElement` label `n` of the list that neither contains nor lies below
another node of the list. -/
theorem foldl_hideOne_label_mem (l : List Node) (s : State) (n : Node)
    (hm : n ∈ l) (hnodup : l.Nodup)
    (hel : s.dom.isHTMLElement n = true ∧ s.dom.isConnected n = true)
    (hnest : ∀ m ∈ l, m ≠ n → m ∉ s.dom.descendants n ∧ n ∉ s.dom.descendants m) :
    (l.foldl hideOne s).label n = (s.label n).reconciled s.prefixes := by
  induction l generalizing s with
  | nil => exact absurd hm (List.not_mem_nil _)
  | cons m l ih =>
    rw [List.foldl_cons]
    have hn := List.nodup_cons.1 hnodup
    have hsh := hideOne_shrinks s m
    by_cases e : n = m
    · subst e
      rw [foldl_hideOne_label_frame l _ n
        (fun x hx => hsh.not_mem
          (hnest x (List.mem_cons_of_mem _ hx) (fun hxn => hn.1 (hxn ▸ hx))).1)
        (fun hin => absurd hin hn.1)]
      rw [hideOne_eq, if_pos hel]
      exact applyPrefixesToSpan_label n s
    · have hm2 : n ∈ l := by
        rcases List.mem_cons.1 hm with h1 | h1
        · exact absurd h1 e
        · exact h1
      have hmn := hnest m (List.mem_cons_self _ _) (fun h => e h.symm)
      have hel2 : (hideOne s m).dom.isHTMLElement n = true
          ∧ (hideOne s m).dom.isConnected n = true := by
        constructor
        · rw [hsh.isHTMLElement]; exact hel.1
        · rw [hideOne_isConnected s m n (Or.inr hmn.2)]; exact hel.2
      rw [ih (hideOne s m) hm2 hn.2 hel2
        (fun x hx hxn =>
          ⟨hsh.not_mem (hnest x (List.mem_cons_of_mem _ hx) hxn).1,
            hsh.not_mem (hnest x (List.mem_cons_of_mem _ hx) hxn).2⟩),
        hideOne_label_other s m n e hmn.1, hideOne_prefixes]

/-- The calls of a pass over nodes none of which lies below another: one
`applyPrefixesToSpan` for each attached `HTMLElement` of the list, in order. -/
theorem foldl_hideOne_calls (l : List Node) (s : State)
    (hnest : ∀ a ∈ l, ∀ b ∈ l, b = a ∨ b ∉ s.dom.descendants a) :
    (l.foldl hideOne s).calls = s.calls ++
      (l.filter (fun n => s.dom.isHTMLElement n && s.dom.isConnected n)).map
        Call.applyPrefixesToSpan := by
  induction l generalizing s with
  | nil => simp
  | cons m l ih =>
    rw [List.foldl_cons]
    have hsh := hideOne_shrinks s m
    rw [ih (hideOne s m) (fun a ha b hb =>
      (hnest a (List.mem_cons_of_mem _ ha) b (List.mem_cons_of_mem _ hb)).imp id hsh.not_mem)]
    have hfilt : l.filter (fun n => (hideOne s m).dom.isHTMLElement n
          && (hideOne s m).dom.isConnected n)
        = l.filter (fun n => s.dom.isHTMLElement n && s.dom.isConnected n) := by
      apply List.filter_congr
      intro b hb
      rw [hsh.isHTMLElement, hideOne_isConnected s m b
        (hnest m (List.mem_cons_self _ _) b (List.mem_cons_of_mem _ hb))]
    rw [hfilt, hideOne_calls]
    by_cases h : (s.dom.isHTMLElement m && s.dom.isConnected m) = true
    · simp [List.filter_cons, h]
    · simp [List.filter_cons, h]

/-- The calls of any pass: `applyPrefixesToSpan` calls on a sublist of the
targets. -/
theorem foldl_hideOne_calls_sublist (l : List Node) (s : State) :
    ∃ applied : List Node, applied.Sublist l
      ∧ (l.foldl hideOne s).calls = s.calls ++ applied.map Call.applyPrefixesToSpan := by
  induction l generalizing s with
  | nil => exact ⟨[], List.Sublist.refl _, by simp⟩
  | cons m l ih =>
    obtain ⟨applied, hsub, hcalls⟩ := ih (hideOne s m)
    rw [List.foldl_cons, hcalls, hideOne_calls]
    by_cases h : (s.dom.isHTMLElement m && s.dom.isConnected m) = true
    · exact ⟨m :: applied, hsub.cons₂ m, by simp [h]⟩
    · exact ⟨applied, hsub.cons m, by simp [h]⟩

theorem hidePrefixes_eq (spans : Option (List Node)) (s : State) :
    hidePrefixes spans s = (targetsOf spans s).foldl hideOne (s.record (.hidePrefixes spans)) := by
  cases spans <;> rfl

theorem hidePrefixes_shrinks (spans : Option (List Node)) (s : State) :
    (hidePrefixes spans s).dom.Shrinks s.dom := by
  rw [hidePrefixes_eq]
  exact foldl_hideOne_shrinks _ _

theorem hidePrefixes_prefixes (spans : Option (List Node)) (s : State) :
    (hidePrefixes spans s).prefixes = s.prefixes := by
  rw [hidePrefixes_eq]
  exact foldl_hideOne_prefixes _ _

/-! ### Label states -/

theorem reconciled_fresh (ps : List Str) (t : Str) :
    LabelState.reconciled ps { text := t, original := none, lastApplied := none } =
      { text := computeHiddenName ps t, original := some t,
        lastApplied := some (computeHiddenName ps t) } := by
  simp [LabelState.reconciled, LabelState.refreshes, LabelState.resolved]

theorem reconciled_displayed (ps qs : List Str) (t : Str) :
    LabelState.reconciled qs
        { text := computeHiddenName ps t, original := some t,
          lastApplied := some (computeHiddenName ps t) } =
      { text := computeHiddenName qs t, original := some t,
        lastApplied := some (computeHiddenName qs t) } := by
  have hres : LabelState.resolved
      { text := computeHiddenName ps t, original := some t,
        lastApplied := some (computeHiddenName ps t) } = t := by
    cases t with
    | nil => simp [LabelState.resolved, LabelState.refreshes, orElse, computeHiddenName_nil]
    | cons c cs => simp [LabelState.resolved, LabelState.refreshes, orElse]
  simp [LabelState.reconciled, hres, LabelState.refreshes]

/-! ### Reconfiguration -/

theorem label_fresh (s : State) (n : Node)
    (horig : s.originalNameMap n = none) (happ : s.appliedNameMap n = none) :
    s.label n = { text := s.dom.textContent n, original := none, lastApplied := none } := by
  simp [State.label, horig, happ]

theorem apply_twice_label (s : State) (n : Node) (P Q : List Str)
    (horig : s.originalNameMap n = none) (happ : s.appliedNameMap n = none) :
    (applyPrefixesToSpan n ((applyPrefixesToSpan n (s.setPrefixes P)).setPrefixes Q)).label n =
      { text := computeHiddenName Q (s.dom.textContent n)
        original := some (s.dom.textContent n)
        lastApplied := some (computeHiddenName Q (s.dom.textContent n)) } := by
  have e1 : (applyPrefixesToSpan n (s.setPrefixes P)).label n =
      { text := computeHiddenName P (s.dom.textContent n)
        original := some (s.dom.textContent n)
        lastApplied := some (computeHiddenName P (s.dom.textContent n)) } := by
    rw [applyPrefixesToSpan_label]
    have : (s.setPrefixes P).label n = s.label n := rfl
    rw [this, label_fresh s n horig happ]
    exact reconciled_fresh P _
  rw [applyPrefixesToSpan_label]
  have e2 : ((applyPrefixesToSpan n (s.setPrefixes P)).setPrefixes Q).label n =
      (applyPrefixesToSpan n (s.setPrefixes P)).label n := rfl
  rw [e2, e1]
  exact reconciled_displayed P Q _

theorem mem_documentChannelNames {d : Dom} {n : Node} :
    n ∈ d.documentChannelNames ↔
      n ∈ d.descendants d.document ∧ d.matchesChannelName n = true := by
  simp [Dom.documentChannelNames, Dom.querySelectorAll, List.mem_filter]

theorem isConnected_of_mem_documentChannelNames {d : Dom} {n : Node}
    (h : n ∈ d.documentChannelNames) : d.isConnected n = true := by
  simp only [Dom.isConnected, Bool.or_eq_true, decide_eq_true_eq]
  exact Or.inr (mem_documentChannelNames.1 h).1

/-- One recompute-all pass reconciles a label that contains no label and lies
below no other label, and the label is still found by the next document
query. -/
theorem hidePrefixes_all_label (s : State) (n : Node)
    (hel : s.dom.isHTMLElement n = true)
    (hmem : n ∈ s.dom.documentChannelNames)
    (hnodup : s.dom.documentChannelNames.Nodup)
    (hin : ∀ m ∈ s.dom.documentChannelNames, m ∉ s.dom.descendants n)
    (hout : ∀ m ∈ s.dom.documentChannelNames, m ≠ n → n ∉ s.dom.descendants m) :
    (hidePrefixes none s).label n = (s.label n).reconciled s.prefixes
      ∧ n ∈ (hidePrefixes none s).dom.documentChannelNames := by
  have hconn := isConnected_of_mem_documentChannelNames hmem
  have hne : n ≠ s.dom.document := by
    intro e
    have h1 := (mem_documentChannelNames.1 hmem).1
    rw [← e] at h1
    exact hin n hmem h1
  constructor
  · rw [hidePrefixes_eq]
    exact foldl_hideOne_label_mem _ (s.record (.hidePrefixes none)) n hmem hnodup ⟨hel, hconn⟩
      (fun m hm hmn => ⟨hin m hm, hout m hm hmn⟩)
  · have hsh := hidePrefixes_shrinks none s
    have hc : (hidePrefixes none s).dom.isConnected n = true := by
      rw [hidePrefixes_eq]
      rw [foldl_hideOne_isConnected _ (s.record (.hidePrefixes none)) n
        (fun m hm => by
          by_cases e : m = n
          · exact Or.inl e.symm
          · exact Or.inr (hout m hm e))]
      exact hconn
    simp only [Dom.isConnected, Bool.or_eq_true, decide_eq_true_eq] at hc
    rcases hc with hc | hc
    · exact absurd (hc.trans hsh.document) hne
    · refine mem_documentChannelNames.2 ⟨hc, ?_⟩
      rw [hsh.matchesChannelName]
      exact (mem_documentChannelNames.1 hmem).2

theorem hide_twice_label (s : State) (n : Node) (P Q : List Str)
    (horig : s.originalNameMap n = none) (happ : s.appliedNameMap n = none)
    (hel : s.dom.isHTMLElement n = true)
    (hmem : n ∈ s.dom.documentChannelNames)
    (hnodup : s.dom.documentChannelNames.Nodup)
    (hin : ∀ m ∈ s.dom.documentChannelNames, m ∉ s.dom.descendants n)
    (hout : ∀ m ∈ s.dom.documentChannelNames, m ≠ n → n ∉ s.dom.descendants m) :
    (hidePrefixes none ((hidePrefixes none (s.setPrefixes P)).setPrefixes Q)).label n =
      { text := computeHiddenName Q (s.dom.textContent n)
        original := some (s.dom.textContent n)
        lastApplied := some (computeHiddenName Q (s.dom.textContent n)) } := by
  have p1 := hidePrefixes_all_label (s.setPrefixes P) n hel hmem hnodup hin hout
  have hsh : (hidePrefixes none (s.setPrefixes P)).dom.Shrinks s.dom :=
    hidePrefixes_shrinks none (s.setPrefixes P)
  have hsub := hsh.documentChannelNames
  have e1 : (hidePrefixes none (s.setPrefixes P)).label n =
      { text := computeHiddenName P (s.dom.textContent n)
        original := some (s.dom.textContent n)
        lastApplied := some (computeHiddenName P (s.dom.textContent n)) } := by
    rw [p1.1]
    have : (s.setPrefixes P).label n = s.label n := rfl
    rw [this, label_fresh s n horig happ]
    exact reconciled_fresh P _
  have p2 := hidePrefixes_all_label ((hidePrefixes none (s.setPrefixes P)).setPrefixes Q) n
    (by show (hidePrefixes none (s.setPrefixes P)).dom.isHTMLElement n = true
        rw [hsh.isHTMLElement]; exact hel)
    p1.2 (hnodup.sublist hsub)
    (fun m hm => hsh.not_mem (hin m (hsub.subset hm)))
    (fun m hm hmn => hsh.not_mem (hout m (hsub.subset hm) hmn))
  rw [p2.1]
  have e2 : ((hidePrefixes none (s.setPrefixes P)).setPrefixes Q).label n =
      (hidePrefixes none (s.setPrefixes P)).label n := rfl
  rw [e2, e1]
  exact reconciled_displayed P Q _

/-- C3: for an attached label with no stored state and text `t`, reconciling
it under a prefix list `P`, replacing the prefix list by `Q` and reconciling
again, with no host write in between, leaves the label text equal to
`computeHiddenName` of `t` under `Q`, and equal to `t` when `Q` is empty. This
holds for two `applyPrefixesToSpan` calls on the label, and for two
recompute-all passes of `hidePrefixes` when the label is an `HTMLElement`
that contains no label and lies inside no other label. -/
theorem original_survives_reconfiguration (s : State) (n : Node) (P Q : List Str)
    (horig : s.originalNameMap n = none) (happ : s.appliedNameMap n = none)
    (hel : s.dom.isHTMLElement n = true)
    (hmem : n ∈ s.dom.documentChannelNames)
    (hnodup : s.dom.documentChannelNames.Nodup)
    (hin : ∀ m ∈ s.dom.documentChannelNames, m ∉ s.dom.descendants n)
    (hout : ∀ m ∈ s.dom.documentChannelNames, m ≠ n → n ∉ s.dom.descendants m) :
    (applyPrefixesToSpan n
        ((applyPrefixesToSpan n (s.setPrefixes P)).setPrefixes Q)).dom.textContent n
      = computeHiddenName Q (s.dom.textContent n)
    ∧ (hidePrefixes none
        ((hidePrefixes none (s.setPrefixes P)).setPrefixes Q)).dom.textContent n
      = computeHiddenName Q (s.dom.textContent n)
    ∧ (applyPrefixesToSpan n
        ((applyPrefixesToSpan n (s.setPrefixes P)).setPrefixes [])).dom.textContent n
      = s.dom.textContent n
    ∧ (hidePrefixes none
        ((hidePrefixes none (s.setPrefixes P)).setPrefixes [])).dom.textContent n
      = s.dom.textContent n := by
  have a := fun Q => congrArg LabelState.text (apply_twice_label s n P Q horig happ)
  have b := fun Q => congrArg LabelState.text
    (hide_twice_label s n P Q horig happ hel hmem hnodup hin hout)
  exact ⟨a Q, b Q, a [], b []⟩

/-- Witness for C3: with `P = ["team"]` a fresh label holding `"team-design"`
shows `"design"`, and after the prefix list is replaced by `[]` a recompute-all
pass shows `"team-design"` again. -/
theorem original_survives_reconfiguration_witness :
    (hidePrefixes none
        ((State.init (singleLabelDom "team-design".toList)).setPrefixes
          ["team".toList])).dom.textContent 0 = "design".toList
    ∧ (hidePrefixes none
        ((hidePrefixes none
          ((State.init (singleLabelDom "team-design".toList)).setPrefixes
            ["team".toList])).setPrefixes [])).dom.textContent 0 = "team-design".toList :=
  ⟨by decide,
    (original_survives_reconfiguration (State.init (singleLabelDom "team-design".toList)) 0
      ["team".toList] ["team".toList] rfl rfl rfl
      (by decide) (by decide) (by decide) (by decide)).2.2.2⟩

/-- C3 as first stated fails for nested labels: in `nestedDom` the attached
label `1`, with no stored state and text `"foo-x"`, lies inside the label `0`.
The first recompute-all pass, under `["fo"]`, writes to the label `0`, which
removes the label `1` from the tree; both passes skip it, and after the second
pass, under `["foo"]`, its text is still `"foo-x"`, not `"x"`. -/
theorem original_lost_for_nested_label :
    (State.init nestedDom).dom.isConnected 1 = true
    ∧ (State.init nestedDom).dom.isHTMLElement 1 = true
    ∧ 1 ∈ (State.init nestedDom).dom.documentChannelNames
    ∧ (State.init nestedDom).originalNameMap 1 = none
    ∧ (State.init nestedDom).appliedNameMap 1 = none
    ∧ (State.init nestedDom).dom.textContent 1 = "foo-x".toList
    ∧ computeHiddenName ["foo".toList] "foo-x".toList = "x".toList
    ∧ (hidePrefixes none
        ((hidePrefixes none
          ((State.init nestedDom).setPrefixes ["fo".toList])).setPrefixes
            ["foo".toList])).dom.textContent 1 = "foo-x".toList
    ∧ (hidePrefixes none
        ((hidePrefixes none
          ((State.init nestedDom).setPrefixes ["fo".toList])).setPrefixes
            ["foo".toList])).dom.textContent 1
        ≠ computeHiddenName ["foo".toList] ((State.init nestedDom).dom.textContent 1) := by
  decide

/-! ### Overwrite detection -/

/-- An overwrite is detected whenever the recorded last applied text is a
non-empty string different from the current text: the current text is
returned, stored as the original, and the last applied text is removed. -/
theorem getOriginalName_detects_overwrite (s : State) (n : Node) (a : Str)
    (ha : s.appliedNameMap n = some a) (hne : a ≠ []) (hdiff : s.dom.textContent n ≠ a) :
    (getOriginalName n s).1 = s.dom.textContent n
    ∧ (getOriginalName n s).2.originalNameMap n = some (s.dom.textContent n)
    ∧ (getOriginalName n s).2.appliedNameMap n = none := by
  have hr : (s.label n).refreshes = true := by
    cases a with
    | nil => exact absurd rfl hne
    | cons c cs =>
      simp only [LabelState.refreshes, State.label, ha, truthy, Bool.true_and,
        Bool.or_eq_true, decide_eq_true_eq]
      right
      intro h
      exact hdiff (Option.some.inj h)
  have h1 := getOriginalName_fst n s
  have h2 := getOriginalName_label n s
  simp only [LabelState.resolved, hr, if_true] at h1 h2
  simp only [State.label, LabelState.mk.injEq] at h2
  exact ⟨h1, h2.2.1, h2.2.2⟩

/-- C2, at the failing input: prefixes `["foo"]`, a label holding `"foo"` is
reconciled, so that its displayed text and its recorded last applied text are
the empty string; the host then writes `"foo-qux"`. The next `getOriginalName`
call returns the stale `"foo"`, leaves the stored original and the stored last
applied text as they were, and the next reconciliation replaces the host's
text by the empty string. -/
theorem getOriginalName_misses_overwrite_of_empty_lastApplied :
    emptiedThenOverwritten.appliedNameMap 0 = some []
    ∧ emptiedThenOverwritten.dom.textContent 0 = "foo-qux".toList
    ∧ (getOriginalName 0 emptiedThenOverwritten).1 = "foo".toList
    ∧ (getOriginalName 0 emptiedThenOverwritten).2.originalNameMap 0 = some "foo".toList
    ∧ (getOriginalName 0 emptiedThenOverwritten).2.appliedNameMap 0 = some []
    ∧ (applyPrefixesToSpan 0 emptiedThenOverwritten).dom.textContent 0 = [] := by
  decide

/-! ### Idempotence and the applied-text invariant -/

/-- Every reconciliation records the text it leaves in the label as the last
applied text. -/
theorem applyPrefixesToSpan_records_applied (s : State) (n : Node) :
    (applyPrefixesToSpan n s).appliedNameMap n
      = some ((applyPrefixesToSpan n s).dom.textContent n) := by
  have h := applyPrefixesToSpan_label n s
  simp only [State.label, LabelState.reconciled, LabelState.mk.injEq] at h
  rw [h.2.2, h.1]

/-- After a reconciliation the label text is `computeHiddenName` of the stored
original, provided the stored original is not the empty string. -/
theorem applyPrefixesToSpan_text_of_original (s : State) (n : Node) (o : Str)
    (ho : (applyPrefixesToSpan n s).originalNameMap n = some o) (hne : o ≠ []) :
    (applyPrefixesToSpan n s).dom.textContent n = computeHiddenName s.prefixes o := by
  have h := applyPrefixesToSpan_label n s
  simp only [State.label, LabelState.reconciled, LabelState.mk.injEq] at h
  obtain ⟨ht, horig, -⟩ := h
  rw [ht]
  congr 1
  rw [ho] at horig
  simp only [LabelState.resolved]
  split at horig
  · rename_i hr
    simp only [hr, if_true]
    exact (Option.some.inj horig).symm
  · rename_i hr
    simp only [hr]
    rw [← horig]
    cases o with
    | nil => exact absurd rfl hne
    | cons c cs => rfl

theorem refreshes_false_of_applied (l : LabelState)
    (ho : l.original.isSome = true) (ha : l.lastApplied = some l.text) :
    l.refreshes = false := by
  simp [LabelState.refreshes, ho, ha]

theorem isSome_of_not_refreshes (l : LabelState) (h : l.refreshes = false) :
    l.original.isSome = true := by
  cases ho : l.original with
  | none => simp [LabelState.refreshes, ho] at h
  | some o => rfl

theorem reconciled_refreshes (ps : List Str) (l : LabelState) :
    (l.reconciled ps).refreshes = false := by
  apply refreshes_false_of_applied
  · show (if l.refreshes then some l.text else l.original).isSome = true
    cases hr : l.refreshes with
    | true => rfl
    | false => simpa using isSome_of_not_refreshes l hr
  · rfl

theorem reconciled_resolved (ps : List Str) (l : LabelState) (ho : l.original ≠ some []) :
    (l.reconciled ps).resolved = l.resolved := by
  have hrf := reconciled_refreshes ps l
  have e1 : (l.reconciled ps).resolved
      = orElse (l.reconciled ps).original (l.reconciled ps).text := by
    simp only [LabelState.resolved, hrf]
    rfl
  rw [e1]
  show orElse (if l.refreshes then some l.text else l.original)
    (computeHiddenName ps l.resolved) = l.resolved
  cases hr : l.refreshes with
  | true =>
    have e2 : l.resolved = l.text := by simp only [LabelState.resolved, hr, if_true]
    rw [e2]
    simp only [if_true]
    cases ht : l.text with
    | nil => simp only [orElse, computeHiddenName_nil]
    | cons c cs => rfl
  | false =>
    have e2 : l.resolved = orElse l.original l.text := by
      simp only [LabelState.resolved, hr]
      rfl
    rw [e2]
    cases hov : l.original with
    | none =>
      have := isSome_of_not_refreshes l hr
      rw [hov] at this
      exact absurd this (by simp)
    | some ov =>
      cases ov with
      | nil => exact absurd hov ho
      | cons c cs => rfl

/-- Reconciling twice in succession is idempotent on every label whose stored
original, if any, is not the empty string: the second run resolves the same
original and leaves the same label state. -/
theorem applyPrefixesToSpan_idempotent_of_original (s : State) (n : Node)
    (h : s.originalNameMap n ≠ some []) :
    (getOriginalName n (applyPrefixesToSpan n s)).1 = (getOriginalName n s).1
    ∧ (applyPrefixesToSpan n (applyPrefixesToSpan n s)).label n
        = (applyPrefixesToSpan n s).label n := by
  have k1 := reconciled_resolved s.prefixes (s.label n) h
  have k2 := reconciled_refreshes s.prefixes (s.label n)
  have a1 : (applyPrefixesToSpan n s).label n = (s.label n).reconciled s.prefixes :=
    applyPrefixesToSpan_label n s
  have a2 : (applyPrefixesToSpan n (applyPrefixesToSpan n s)).label n
      = ((s.label n).reconciled s.prefixes).reconciled s.prefixes := by
    rw [applyPrefixesToSpan_label n (applyPrefixesToSpan n s), a1,
      applyPrefixesToSpan_prefixes]
  constructor
  · rw [getOriginalName_fst, getOriginalName_fst, a1]
    exact k1
  · rw [a2, a1]
    generalize hl2 : (s.label n).reconciled s.prefixes = l2 at k1 k2
    have e : l2.reconciled s.prefixes
        = { text := computeHiddenName s.prefixes l2.resolved
            original := l2.original
            lastApplied := some (computeHiddenName s.prefixes l2.resolved) } := by
      simp only [LabelState.reconciled, k2]
      rfl
    rw [e, k1, ← hl2]
    rfl

/-- C4, at the failing input: prefixes `["foo", "bar"]`, a label that is still
empty is reconciled (stored original and last applied text: the empty string)
and the host then writes `"foo-bar-baz"`. Two reconciliations in succession
follow: the first resolves the original `"foo-bar-baz"` and leaves the text
`"bar-baz"`, the second resolves the original `"bar-baz"` and leaves the text
`"baz"`. -/
theorem applyPrefixesToSpan_twice_differs_of_empty_original :
    emptyThenFilled.originalNameMap 0 = some []
    ∧ (getOriginalName 0 emptyThenFilled).1 = "foo-bar-baz".toList
    ∧ (applyPrefixesToSpan 0 emptyThenFilled).dom.textContent 0 = "bar-baz".toList
    ∧ (getOriginalName 0 (applyPrefixesToSpan 0 emptyThenFilled)).1 = "bar-baz".toList
    ∧ (applyPrefixesToSpan 0 (applyPrefixesToSpan 0 emptyThenFilled)).dom.textContent 0
        = "baz".toList := by
  decide

/-- C5, at the failing input: in the run of `emptyThenFilled`, after the
reconciliation that follows the host write the last applied text is present
and equals the label text `"bar-baz"`, but the store holds the empty string as
the original, whose `computeHiddenName` is the empty string. -/
theorem applyPrefixesToSpan_text_differs_from_stored_original :
    (applyPrefixesToSpan 0 emptyThenFilled).appliedNameMap 0
        = some ((applyPrefixesToSpan 0 emptyThenFilled).dom.textContent 0)
    ∧ (applyPrefixesToSpan 0 emptyThenFilled).dom.textContent 0 = "bar-baz".toList
    ∧ (applyPrefixesToSpan 0 emptyThenFilled).originalNameMap 0 = some []
    ∧ computeHiddenName (applyPrefixesToSpan 0 emptyThenFilled).prefixes [] = [] := by
  decide

/-! ## Flushing the pending set -/

theorem setAdd_nodup (set : List Node) (n : Node) (h : set.Nodup) : (setAdd set n).Nodup := by
  unfold setAdd
  split
  · exact h
  · rename_i hn
    exact List.nodup_append.2 ⟨h, List.nodup_singleton n, by
      intro a ha hb
      rw [List.mem_singleton] at hb
      exact hn (hb ▸ ha)⟩

theorem setAddAll_nodup (nodes : List Node) (set : List Node) (h : set.Nodup) :
    (setAddAll set nodes).Nodup := by
  induction nodes generalizing set with
  | nil => exact h
  | cons n l ih => exact ih _ (setAdd_nodup set n h)

/-- The pending set stays free of duplicates under `scheduleHide`. -/
theorem scheduleHide_pendingSpans_nodup (r : Spans) (s : State) (h : s.pendingSpans.Nodup) :
    (scheduleHide r s).pendingSpans.Nodup := by
  have e : (scheduleHide r s).pendingSpans = r.addTo s.pendingSpans := by
    cases r <;> simp only [scheduleHide, Spans.addTo] <;> split <;> rfl
  rw [e]
  cases r with
  | arrayOrSet l => exact setAddAll_nodup l _ h
  | nodeList l => exact setAddAll_nodup l _ h
  | node n => exact setAdd_nodup _ n h
  | undefined => exact h

theorem flushPending_targeted (s : State) (hall : s.scheduleAll = false) :
    flushPending s =
      (s.pendingSpans.filter (fun n => s.dom.isConnected n)).foldl hideOne
        (({ s with pendingSpans := [], scheduleAll := false, rafId := none }.record
            .flushPending).record
          (.hidePrefixes (some (s.pendingSpans.filter (fun n => s.dom.isConnected n))))) := by
  simp only [flushPending, State.record, hall, hidePrefixes]
  rfl

/-- C9: when `flushPending` runs with the recompute-all flag unset and no
pending label lies inside a pending label, `applyPrefixesToSpan` is run, once
each and in order, on exactly the pending labels (`HTMLElement` nodes) that are
still attached; every pending label that has detached keeps its text, its
stored original and its stored last applied text; a node that was not pending
keeps them too when no pending label lies inside it; and a node that lies
inside no pending label is attached afterwards exactly when it was before. -/
theorem flushPending_skips_detached (s : State)
    (hall : s.scheduleAll = false) (hnodup : s.pendingSpans.Nodup)
    (hnest : ∀ a ∈ s.pendingSpans, ∀ b ∈ s.pendingSpans, b ∉ s.dom.descendants a) :
    (flushPending s).calls =
        s.calls ++ [.flushPending,
          .hidePrefixes (some (s.pendingSpans.filter (fun n => s.dom.isConnected n)))]
        ++ (s.pendingSpans.filter
            (fun n => s.dom.isHTMLElement n && s.dom.isConnected n)).map
          Call.applyPrefixesToSpan
    ∧ (∀ n ∈ s.pendingSpans, s.dom.isHTMLElement n = true → s.dom.isConnected n = true →
        (flushPending s).label n = (applyPrefixesToSpan n s).label n)
    ∧ (∀ n ∈ s.pendingSpans, s.dom.isConnected n = false →
        (flushPending s).label n = s.label n)
    ∧ (∀ n, n ∉ s.pendingSpans → (∀ m ∈ s.pendingSpans, m ∉ s.dom.descendants n) →
        (flushPending s).label n = s.label n)
    ∧ (∀ n, (∀ m ∈ s.pendingSpans, n = m ∨ n ∉ s.dom.descendants m) →
        (flushPending s).dom.isConnected n = s.dom.isConnected n) := by
  rw [flushPending_targeted s hall]
  have hsub : ∀ m, m ∈ s.pendingSpans.filter (fun n => s.dom.isConnected n) →
      m ∈ s.pendingSpans := fun m hm => (List.mem_filter.1 hm).1
  refine ⟨?_, ?_, ?_, ?_, ?_⟩
  · have hfilt : List.filter (fun n => s.dom.isHTMLElement n && s.dom.isConnected n)
        (List.filter (fun n => s.dom.isConnected n) s.pendingSpans)
        = List.filter (fun n => s.dom.isHTMLElement n && s.dom.isConnected n)
            s.pendingSpans := by
      rw [List.filter_filter]
      apply List.filter_congr
      intro n _
      cases s.dom.isHTMLElement n <;> cases s.dom.isConnected n <;> rfl
    refine (foldl_hideOne_calls _ _ ?_).trans ?_
    · intro a ha b hb
      exact Or.inr (hnest a (hsub a ha) b (hsub b hb))
    · show (s.calls ++ [Call.flushPending]
          ++ [Call.hidePrefixes (some (s.pendingSpans.filter (fun n => s.dom.isConnected n)))])
          ++ (List.filter (fun n => s.dom.isHTMLElement n && s.dom.isConnected n)
              (List.filter (fun n => s.dom.isConnected n) s.pendingSpans)).map
            Call.applyPrefixesToSpan = _
      rw [hfilt]
      simp
  · intro n hn hel hconn
    refine (foldl_hideOne_label_mem _ _ n ?_ ?_ ?_ ?_).trans ?_
    · exact List.mem_filter.2 ⟨hn, by simpa using hconn⟩
    · exact hnodup.filter _
    · exact ⟨hel, hconn⟩
    · intro m hm _
      exact ⟨hnest n hn m (hsub m hm), hnest m (hsub m hm) n hn⟩
    · rw [applyPrefixesToSpan_label]
      rfl
  · intro n hn hconn
    refine (foldl_hideOne_label_frame _ _ n ?_ ?_).trans rfl
    · intro m hm
      exact hnest n hn m (hsub m hm)
    · intro _ hel
      have h2 : s.dom.isConnected n = true := hel.2
      rw [hconn] at h2
      exact absurd h2 (by simp)
  · intro n hn hin
    refine (foldl_hideOne_label_frame _ _ n ?_ ?_).trans rfl
    · intro m hm
      exact hin m (hsub m hm)
    · intro hmem
      exact absurd (hsub n hmem) hn
  · intro n hout
    refine (foldl_hideOne_isConnected _ _ n ?_).trans rfl
    intro m hm
    exact hout m (hsub m hm)

/-- Witness for C9: with the attached label `0` and the detached label `1`
both pending, the flush reconciles `0` alone: its text `"foo-a"` becomes `"a"`,
and the label `1` keeps its text and has no stored state. -/
theorem flushPending_skips_detached_witness :
    (flushPending twoPending).calls =
        [.requestAnimationFrame, .flushPending, .hidePrefixes (some [0]),
          .applyPrefixesToSpan 0]
    ∧ (flushPending twoPending).label 1 = twoPending.label 1
    ∧ (flushPending twoPending).label 0
        = { text := "a".toList, original := some "foo-a".toList,
            lastApplied := some "a".toList } := by
  have h := flushPending_skips_detached twoPending (by decide) (by decide) (by decide)
  refine ⟨?_, h.2.2.1 1 (by decide) (by decide), ?_⟩
  · rw [h.1]
    decide
  · rw [h.2.1 0 (by decide) (by decide) (by decide)]
    decide

/-- C9 as first stated fails for nested labels. With the labels `0` and `1` of
`nestedDom` both pending and attached, the flush reconciles `0` only: its
write removes the label `1` from the tree before `hidePrefixes` reaches it.
With the inner label `1` alone pending, the flush changes the text of the
label `0`, which was not pending, from `"foo-x"` to `"x"`. -/
theorem flushPending_nested_labels :
    nestedBothPending.scheduleAll = false
    ∧ nestedBothPending.pendingSpans = [0, 1]
    ∧ nestedBothPending.dom.isConnected 0 = true
    ∧ nestedBothPending.dom.isConnected 1 = true
    ∧ (flushPending nestedBothPending).calls =
        [.requestAnimationFrame, .flushPending, .hidePrefixes (some [0, 1]),
          .applyPrefixesToSpan 0]
    ∧ nestedInnerPending.scheduleAll = false
    ∧ nestedInnerPending.pendingSpans = [1]
    ∧ nestedInnerPending.dom.textContent 0 = "foo-x".toList
    ∧ (flushPending nestedInnerPending).dom.textContent 0 = "x".toList := by
  decide

/-! ## Configuration loader -/

/-- C10, at the failing input: when the storage callback is invoked without a
data object, `loadPrefixesAndRun` throws a `TypeError`; no state is returned,
so the prefix list is not replaced and no recompute-all is requested. -/
theorem loadPrefixesAndRun_throws_without_data (s : State) :
    loadPrefixesAndRun none s = .error .typeError := rfl

/-- When the storage callback receives a data object, `loadPrefixesAndRun`
raises no error, sets the prefix list to the delivered array, or to the empty
list when the `prefixes` entry is missing or is not an array, and requests a
recompute-all. -/
theorem loadPrefixesAndRun_of_data (items : StorageItems) (s : State) :
    loadPrefixesAndRun (some items) s =
      .ok (scheduleHide .undefined
        { s with prefixes := match items.prefixes with
                             | .array l => l
                             | _ => [] }) := by
  obtain ⟨v⟩ := items
  cases v with
  | undefined => rfl
  | array l => rfl
  | other b => cases b <;> rfl


/-! ## Batching -/

theorem scheduleHide_eq (r : Spans) (s : State) :
    scheduleHide r s =
      if s.rafId = none then
        { s with
          pendingSpans := r.addTo s.pendingSpans
          scheduleAll := s.scheduleAll || r.isAll
          rafId := some s.nextHandle
          frameCallbacks := s.frameCallbacks ++ [s.nextHandle]
          nextHandle := s.nextHandle + 1
          calls := s.calls ++ [.requestAnimationFrame] }
      else
        { s with
          pendingSpans := r.addTo s.pendingSpans
          scheduleAll := s.scheduleAll || r.isAll } := by
  cases r <;> by_cases h : s.rafId = none <;>
    simp [scheduleHide, requestAnimationFrame, State.record, Spans.addTo, Spans.isAll, h]

theorem runRequests_armed (reqs : List Spans) (s : State) (h : s.rafId ≠ none) :
    runRequests reqs s =
      { s with
        pendingSpans := reqs.foldl (fun p r => r.addTo p) s.pendingSpans
        scheduleAll := s.scheduleAll || reqs.any Spans.isAll } := by
  induction reqs generalizing s with
  | nil => simp [runRequests]
  | cons r rest ih =>
    have e : runRequests (r :: rest) s = runRequests rest (scheduleHide r s) := rfl
    rw [e, scheduleHide_eq, if_neg h]
    refine (ih _ ?_).trans ?_
    · exact h
    · simp [Bool.or_assoc]

theorem runRequests_idle (r : Spans) (rest : List Spans) (s : State) (h : s.rafId = none) :
    runRequests (r :: rest) s =
      { s with
        pendingSpans := (r :: rest).foldl (fun p r => r.addTo p) s.pendingSpans
        scheduleAll := s.scheduleAll || (r :: rest).any Spans.isAll
        rafId := some s.nextHandle
        frameCallbacks := s.frameCallbacks ++ [s.nextHandle]
        nextHandle := s.nextHandle + 1
        calls := s.calls ++ [.requestAnimationFrame] } := by
  have e : runRequests (r :: rest) s = runRequests rest (scheduleHide r s) := rfl
  rw [e, scheduleHide_eq, if_pos h]
  refine (runRequests_armed _ _ ?_).trans ?_
  · simp
  · simp [Bool.or_assoc]

theorem flushPending_eq (s : State) :
    flushPending s =
      hidePrefixes (spansToProcess s)
        ({ s with pendingSpans := [], scheduleAll := false, rafId := none }.record
          .flushPending) := by
  simp only [flushPending, spansToProcess, State.record]

theorem flushPending_calls (s : State) :
    ∃ applied : List Node, applied.Sublist (targetsOf (spansToProcess s) s)
      ∧ (flushPending s).calls =
          s.calls ++ [.flushPending, .hidePrefixes (spansToProcess s)]
            ++ applied.map Call.applyPrefixesToSpan := by
  rw [flushPending_eq, hidePrefixes_eq]
  have ht : targetsOf (spansToProcess s)
      ({ s with pendingSpans := [], scheduleAll := false, rafId := none }.record
        .flushPending) = targetsOf (spansToProcess s) s := by
    cases spansToProcess s <;> rfl
  rw [ht]
  obtain ⟨applied, hsub, hcalls⟩ := foldl_hideOne_calls_sublist (targetsOf (spansToProcess s) s)
    (({ s with pendingSpans := [], scheduleAll := false, rafId := none }.record
        .flushPending).record (.hidePrefixes (spansToProcess s)))
  refine ⟨applied, hsub, hcalls.trans ?_⟩
  simp [State.record]

theorem runAnimationFrame_single (s : State) (h : Nat) (hq : s.frameCallbacks = [h]) :
    runAnimationFrame s = flushPending { s with frameCallbacks := [] } := by
  simp [runAnimationFrame, hq]

theorem any_isAll_of_mem (reqs : List Spans) (h : Spans.undefined ∈ reqs) :
    reqs.any Spans.isAll = true :=
  List.any_eq_true.2 ⟨Spans.undefined, h, rfl⟩

theorem runAnimationFrame_recompute_all (s : State) (r : Spans) (rest : List Spans)
    (hr : s.rafId = none) (hq : s.frameCallbacks = [])
    (hall : (r :: rest).any Spans.isAll = true) :
    runAnimationFrame (runRequests (r :: rest) s) =
      hidePrefixes none
        { s with
          pendingSpans := []
          scheduleAll := false
          rafId := none
          frameCallbacks := []
          nextHandle := s.nextHandle + 1
          calls := s.calls ++ [.requestAnimationFrame] ++ [.flushPending] } := by
  rw [runRequests_idle r rest s hr]
  rw [runAnimationFrame_single _ s.nextHandle (by simp [hq]), flushPending_eq]
  have hsp : ∀ (p : List Node), spansToProcess
      { s with
        pendingSpans := p
        scheduleAll := s.scheduleAll || (r :: rest).any Spans.isAll
        rafId := some s.nextHandle
        frameCallbacks := []
        nextHandle := s.nextHandle + 1
        calls := s.calls ++ [.requestAnimationFrame] } = none := by
    intro p
    simp only [spansToProcess, hall, Bool.or_true, if_true]
  exact congrArg (fun sp => hidePrefixes sp _) (hsp _)

/-- C7: from a scheduler with no frame callback outstanding (`rafId` null),
every non-empty sequence of `scheduleHide` calls made before the frame callback
fires calls `requestAnimationFrame` exactly once, so the frame runs one
`flushPending`, which makes one `hidePrefixes` call, followed only by
`applyPrefixesToSpan` calls on targets of that call; when one of the calls is a
recompute-all request, wherever it sits in the sequence, that call is
`hidePrefixes` without argument, over the labels of the document, and the state
after the frame is the state after a lone recompute-all request and its
frame. -/
theorem scheduleHide_batches (s : State) (reqs : List Spans) (hne : reqs ≠ [])
    (hr : s.rafId = none) (hq : s.frameCallbacks = []) :
    (runRequests reqs s).calls = s.calls ++ [.requestAnimationFrame]
    ∧ (runRequests reqs s).frameCallbacks = [s.nextHandle]
    ∧ (∃ (spans : Option (List Node)) (applied : List Node),
        applied.Sublist (targetsOf spans s)
        ∧ (runAnimationFrame (runRequests reqs s)).calls =
          s.calls ++ [.requestAnimationFrame, .flushPending, .hidePrefixes spans]
            ++ applied.map Call.applyPrefixesToSpan)
    ∧ (Spans.undefined ∈ reqs →
        (∃ applied : List Node, applied.Sublist s.dom.documentChannelNames
          ∧ (runAnimationFrame (runRequests reqs s)).calls =
            s.calls ++ [.requestAnimationFrame, .flushPending, .hidePrefixes none]
              ++ applied.map Call.applyPrefixesToSpan)
        ∧ runAnimationFrame (runRequests reqs s)
            = runAnimationFrame (scheduleHide .undefined s)) := by
  cases reqs with
  | nil => exact absurd rfl hne
  | cons r rest =>
    have hform := runRequests_idle r rest s hr
    have hfc : (runRequests (r :: rest) s).frameCallbacks = [s.nextHandle] := by
      rw [hform]; simp [hq]
    have hcalls : ∃ applied : List Node,
        applied.Sublist (targetsOf (spansToProcess (runRequests (r :: rest) s)) s)
        ∧ (runAnimationFrame (runRequests (r :: rest) s)).calls =
          s.calls ++ [.requestAnimationFrame, .flushPending,
              .hidePrefixes (spansToProcess (runRequests (r :: rest) s))]
            ++ applied.map Call.applyPrefixesToSpan := by
      rw [runAnimationFrame_single _ s.nextHandle hfc]
      obtain ⟨applied, hsub, hc⟩ :=
        flushPending_calls { runRequests (r :: rest) s with frameCallbacks := [] }
      have h1 : spansToProcess { runRequests (r :: rest) s with frameCallbacks := [] }
          = spansToProcess (runRequests (r :: rest) s) := rfl
      have h2 : ∀ sp, targetsOf sp { runRequests (r :: rest) s with frameCallbacks := [] }
          = targetsOf sp s := by
        intro sp
        rw [hform]
        cases sp <;> rfl
      have h3 : ({ runRequests (r :: rest) s with frameCallbacks := [] } : State).calls
          = s.calls ++ [.requestAnimationFrame] := by
        rw [hform]
      rw [h1, h2] at hsub
      rw [h1, h3] at hc
      exact ⟨applied, hsub, hc.trans (by simp)⟩
    refine ⟨by rw [hform], hfc, ⟨_, hcalls⟩, ?_⟩
    intro hmem
    have hall := any_isAll_of_mem _ hmem
    have hsp : spansToProcess (runRequests (r :: rest) s) = none := by
      rw [hform]
      simp only [spansToProcess, hall, Bool.or_true, if_true]
    constructor
    · rw [hsp] at hcalls
      exact hcalls
    · rw [runAnimationFrame_recompute_all s r rest hr hq hall]
      have e : scheduleHide .undefined s = runRequests [.undefined] s := rfl
      rw [e, runAnimationFrame_recompute_all s .undefined [] hr hq rfl]

/-- Witness for C7: 50 targeted requests followed by one recompute-all request
call `requestAnimationFrame` once, and the frame gives the state of a lone
recompute-all request. -/
theorem scheduleHide_batches_witness :
    (runRequests ((List.range 50).map Spans.node ++ [Spans.undefined])
        (State.init (singleLabelDom "team-design".toList))).calls
      = [.requestAnimationFrame]
    ∧ runAnimationFrame
        (runRequests ((List.range 50).map Spans.node ++ [Spans.undefined])
          (State.init (singleLabelDom "team-design".toList)))
      = runAnimationFrame
          (scheduleHide .undefined (State.init (singleLabelDom "team-design".toList))) :=
  have h := scheduleHide_batches (State.init (singleLabelDom "team-design".toList))
    ((List.range 50).map Spans.node ++ [Spans.undefined]) (by simp) rfl rfl
  ⟨h.1, (h.2.2.2 (by simp)).2⟩

/-! ## Removal cleanup -/

theorem forgetRemoved_dom (s : State) (node : Node) : (forgetRemoved s node).dom = s.dom := by
  unfold forgetRemoved
  split <;> rfl

theorem forgetRemoved_none (s : State) (node n : Node)
    (h : s.originalNameMap n = none ∧ s.appliedNameMap n = none) :
    (forgetRemoved s node).originalNameMap n = none
      ∧ (forgetRemoved s node).appliedNameMap n = none := by
  unfold forgetRemoved
  split
  · simp only [WeakMap.delete]
    constructor <;> split <;> simp [h.1, h.2]
  · exact h

theorem forgetRemoved_self (s : State) (n : Node)
    (hel : s.dom.nodeType n = 1) (hmatch : s.dom.matchesChannelName n = true) :
    (forgetRemoved s n).originalNameMap n = none
      ∧ (forgetRemoved s n).appliedNameMap n = none := by
  simp [forgetRemoved, hel, hmatch, WeakMap.delete]

theorem foldl_forgetRemoved_dom (l : List Node) (s : State) :
    (l.foldl forgetRemoved s).dom = s.dom := by
  induction l generalizing s with
  | nil => rfl
  | cons a l ih => rw [List.foldl_cons, ih, forgetRemoved_dom]

theorem foldl_forgetRemoved_none (l : List Node) (s : State) (n : Node)
    (h : s.originalNameMap n = none ∧ s.appliedNameMap n = none) :
    (l.foldl forgetRemoved s).originalNameMap n = none
      ∧ (l.foldl forgetRemoved s).appliedNameMap n = none := by
  induction l generalizing s with
  | nil => exact h
  | cons a l ih => exact ih _ (forgetRemoved_none s a n h)

theorem foldl_forgetRemoved_mem (l : List Node) (s : State) (n : Node) (hn : n ∈ l)
    (hel : s.dom.nodeType n = 1) (hmatch : s.dom.matchesChannelName n = true) :
    (l.foldl forgetRemoved s).originalNameMap n = none
      ∧ (l.foldl forgetRemoved s).appliedNameMap n = none := by
  induction l generalizing s with
  | nil => exact absurd hn (List.not_mem_nil _)
  | cons a l ih =>
    rw [List.foldl_cons]
    rcases List.mem_cons.1 hn with e | hmem
    · subst e
      exact foldl_forgetRemoved_none l _ n (forgetRemoved_self s n hel hmatch)
    · exact ih _ hmem (by rw [forgetRemoved_dom]; exact hel)
        (by rw [forgetRemoved_dom]; exact hmatch)

theorem handleMutation_dom (acc : List Node × State) (m : MutationRecord) :
    (handleMutation acc m).2.dom = acc.2.dom := by
  cases m with
  | childList added removed => exact foldl_forgetRemoved_dom removed acc.2
  | characterData target =>
    simp only [handleMutation]
    split
    · split <;> rfl
    · rfl
  | other => rfl

theorem handleMutation_none (acc : List Node × State) (m : MutationRecord) (n : Node)
    (h : acc.2.originalNameMap n = none ∧ acc.2.appliedNameMap n = none) :
    (handleMutation acc m).2.originalNameMap n = none
      ∧ (handleMutation acc m).2.appliedNameMap n = none := by
  cases m with
  | childList added removed => exact foldl_forgetRemoved_none removed acc.2 n h
  | characterData target =>
    simp only [handleMutation]
    split
    · split <;> exact h
    · exact h
  | other => exact h

theorem foldl_handleMutation_dom (ms : List MutationRecord) (acc : List Node × State) :
    (ms.foldl handleMutation acc).2.dom = acc.2.dom := by
  induction ms generalizing acc with
  | nil => rfl
  | cons m ms ih => rw [List.foldl_cons, ih, handleMutation_dom]

theorem foldl_handleMutation_none (ms : List MutationRecord) (acc : List Node × State)
    (n : Node) (h : acc.2.originalNameMap n = none ∧ acc.2.appliedNameMap n = none) :
    (ms.foldl handleMutation acc).2.originalNameMap n = none
      ∧ (ms.foldl handleMutation acc).2.appliedNameMap n = none := by
  induction ms generalizing acc with
  | nil => exact h
  | cons m ms ih => exact ih _ (handleMutation_none acc m n h)

theorem foldl_handleMutation_removed (ms : List MutationRecord) (acc : List Node × State)
    (added removed : List Node) (n : Node)
    (hm : MutationRecord.childList added removed ∈ ms) (hn : n ∈ removed)
    (hel : acc.2.dom.nodeType n = 1) (hmatch : acc.2.dom.matchesChannelName n = true) :
    (ms.foldl handleMutation acc).2.originalNameMap n = none
      ∧ (ms.foldl handleMutation acc).2.appliedNameMap n = none := by
  induction ms generalizing acc with
  | nil => exact absurd hm (List.not_mem_nil _)
  | cons m ms ih =>
    rw [List.foldl_cons]
    rcases List.mem_cons.1 hm with e | hmem
    · subst e
      exact foldl_handleMutation_none ms _ n
        (foldl_forgetRemoved_mem removed acc.2 n hn hel hmatch)
    · exact ih _ hmem (by rw [handleMutation_dom]; exact hel)
        (by rw [handleMutation_dom]; exact hmatch)

theorem scheduleHide_maps (r : Spans) (s : State) :
    (scheduleHide r s).originalNameMap = s.originalNameMap
      ∧ (scheduleHide r s).appliedNameMap = s.appliedNameMap := by
  rw [scheduleHide_eq]
  split <;> exact ⟨rfl, rfl⟩

theorem refreshObserverTargets_maps (s : State) :
    (refreshObserverTargets s).2.originalNameMap = s.originalNameMap
      ∧ (refreshObserverTargets s).2.appliedNameMap = s.appliedNameMap := by
  unfold refreshObserverTargets
  split <;> exact ⟨rfl, rfl⟩

theorem observerCallback_maps (ms : List MutationRecord) (s : State) :
    (observerCallback ms s).originalNameMap
        = (ms.foldl handleMutation ([], s)).2.originalNameMap
      ∧ (observerCallback ms s).appliedNameMap
        = (ms.foldl handleMutation ([], s)).2.appliedNameMap := by
  simp only [observerCallback]
  split
  · exact ⟨(refreshObserverTargets_maps _).1.trans (scheduleHide_maps _ _).1,
      (refreshObserverTargets_maps _).2.trans (scheduleHide_maps _ _).2⟩
  · exact ⟨(refreshObserverTargets_maps _).1.trans (scheduleHide_maps _ _).1,
      (refreshObserverTargets_maps _).2.trans (scheduleHide_maps _ _).2⟩

/-- A removed node that is itself a label (an element matching the
channel-name selector) has no entry in either map once the observer callback
has returned. -/
theorem observerCallback_forgets_removed_label (ms : List MutationRecord) (s : State)
    (added removed : List Node) (n : Node)
    (hm : MutationRecord.childList added removed ∈ ms) (hn : n ∈ removed)
    (hel : s.dom.nodeType n = 1) (hmatch : s.dom.matchesChannelName n = true) :
    (observerCallback ms s).originalNameMap n = none
      ∧ (observerCallback ms s).appliedNameMap n = none := by
  have h := foldl_handleMutation_removed ms ([], s) added removed n hm hn hel hmatch
  have e := observerCallback_maps ms s
  rw [e.1, e.2]
  exact h

/-- C8, at the failing input: the label `2` has been reconciled and the host
then removes the row `1` that contains it. The batch reports the removal of
node `1`; after the observer callback has returned, the label `2`, which is
detached and lies inside the removed subtree, still has its entries in
`originalNameMap` and in `appliedNameMap`. -/
theorem observerCallback_keeps_label_of_removed_subtree :
    rowRemoved.dom.isConnected 2 = false
    ∧ 2 ∈ rowRemoved.dom.querySelectorAll 1
    ∧ rowRemoved.dom.matchesChannelName 2 = true
    ∧ (observerCallback [.childList [] [1]] rowRemoved).originalNameMap 2
        = some "team-design".toList
    ∧ (observerCallback [.childList [] [1]] rowRemoved).appliedNameMap 2
        = some "design".toList := by
  decide


end SlackPrefixHider
